import Mathlib

/-!
Verification of the openfsa weighted finite-state acceptor engine
(`src/openfsa-sys/src/foreign/fsa.cpp`, `include/fsa.h`) against its
natural-language specification.

The engine works over the tropical (min-plus) semiring: an automaton is a
set of states `0 .. N-1`, a start state, per-state optional final weights,
and labeled weighted arcs (`struct fsa_arc { from_state, to_state, label,
weight }`).  The C layer is a thin wrapper: construction
(`fsa_from_arc_list`), accessors (`fsa_initial_state`,
`fsa_final_states`), a binary codec (`fsa_from_string`/`fsa_to_string`)
and the algorithms (`fsa_intersect`, `fsa_difference`, `fsa_n_best`)
whose algorithmic bodies live in the external FST library; those parts,
together with the typed error kinds, are modelled from the specification
(§4.3–§4.6, §7) as indicated on each definition.

Weights are modelled as rationals (`ℚ`); "not accepting" / semiring Zero
is `Option.none`.  A string is a list of labels; acceptance of a string is
the minimum, over all start-to-final paths carrying exactly that label
sequence, of the accumulated arc weights plus the final weight (label `0`
is matched literally, as the engine performs no implicit epsilon closure).
-/

namespace OpenFSA

/-- An arc, mirroring `struct fsa_arc` of `fsa.h`. -/
structure Arc where
  from_state : Nat
  to_state : Nat
  label : Nat
  weight : ℚ
deriving DecidableEq, Repr

/-- The automaton graph: state count, start state (`none` = unset),
final-weight assignment as an association list, and the arc list. -/
structure FSA where
  numStates : Nat
  start : Option Nat
  finals : List (Nat × ℚ)
  arcs : List Arc
deriving DecidableEq, Repr

/-- Final weight of a state (`none` = not accepting, i.e. semiring Zero). -/
def finalWeight (a : FSA) (q : Nat) : Option ℚ :=
  (a.finals.find? (fun p => p.1 == q)).map (fun p => p.2)

/-- The arcs leaving state `q` with label `l`. -/
def arcsFrom (a : FSA) (q l : Nat) : List Arc :=
  a.arcs.filter (fun t => t.from_state == q && t.label == l)

/-- Semiring One (`one()` of the weight algebra): weight `0`. -/
def wone : ℚ := 0

/-- `combine` of the weight algebra: minimum, with `none` as Zero. -/
def combine : Option ℚ → Option ℚ → Option ℚ
  | none, y => y
  | some x, none => some x
  | some x, some y => some (min x y)

/-- `extend` of the weight algebra: addition, with `none` absorbing. -/
def extend : Option ℚ → Option ℚ → Option ℚ
  | some x, some y => some (x + y)
  | some _, none => none
  | none, _ => none

/-- Weights of all accepting continuations of string `s` from state `q`:
one entry per path from `q` whose labels are exactly `s` and whose end
state is accepting, holding the path's arc-weight sum plus final weight. -/
def accWeights (a : FSA) (q : Nat) : List Nat → List ℚ
  | [] =>
    match finalWeight a q with
    | some w => [w]
    | none => []
  | l :: s =>
    (arcsFrom a q l).flatMap (fun t => (accWeights a t.to_state s).map (fun w => t.weight + w))

/-- Minimum of a list of weights, `none` on the empty list. -/
def listMin : List ℚ → Option ℚ
  | [] => none
  | x :: xs =>
    match listMin xs with
    | none => some x
    | some m => some (min x m)

/-- The weight an automaton assigns to a string: minimum over all
accepting paths carrying that label sequence (`none` = rejected). -/
def weightOf (a : FSA) (s : List Nat) : Option ℚ :=
  match a.start with
  | none => none
  | some q => listMin (accWeights a q s)

/-- A string is accepted when its weight is not semiring Zero. -/
def accepts (a : FSA) (s : List Nat) : Prop :=
  (weightOf a s).isSome

instance (a : FSA) (s : List Nat) : Decidable (accepts a s) := by
  unfold accepts; infer_instance

/-- The start state is set and in range. -/
def startOK (a : FSA) : Prop :=
  match a.start with
  | some s => s < a.numStates
  | none => False

instance (a : FSA) : Decidable (startOK a) :=
  match h : a.start with
  | none => isFalse (by simp [startOK, h])
  | some s => decidable_of_iff (s < a.numStates) (by simp [startOK, h])

/-- Validity of an automaton (spec §3): the start state is set and in
range, every arc endpoint is in range with non-negative weight, and every
final entry names an in-range state with non-negative weight. -/
def Valid (a : FSA) : Prop :=
  startOK a ∧
  (∀ t ∈ a.arcs, t.from_state < a.numStates ∧ t.to_state < a.numStates ∧ 0 ≤ t.weight) ∧
  (∀ p ∈ a.finals, p.1 < a.numStates ∧ 0 ≤ p.2)

instance (a : FSA) : Decidable (Valid a) := by
  unfold Valid
  infer_instance

/-- Fold `combine` over a list of optional weights. -/
def combineAll (l : List (Option ℚ)) : Option ℚ := l.foldr combine none

/-! ### Typed errors and the construction API -/

/-- The typed error kinds of the engine (spec §7). -/
inductive FsaError where
  | OutOfRangeState
  | MalformedEncoding
  | InvalidAutomaton
  | UnrecognizedRepresentation
deriving DecidableEq, Repr

/-- Canonical arc order: grouped by source state, ascending label within
a source group. -/
def arcLe (x y : Arc) : Prop :=
  x.from_state < y.from_state ∨ (x.from_state = y.from_state ∧ x.label ≤ y.label)

instance : DecidableRel arcLe := fun x y => by
  unfold arcLe; infer_instance

instance : IsTotal Arc arcLe :=
  ⟨fun x y => by unfold arcLe; omega⟩

instance : IsTrans Arc arcLe :=
  ⟨fun x y z hxy hyz => by unfold arcLe at *; omega⟩

/-- Construction from an explicit state count, final-state list and arc
list, mirroring `fsa_from_arc_list` of `fsa.cpp`: states `0..states-1`
are allocated, each arc is added as given, every listed final state
receives final weight `one()` (`0`), the start state is hardcoded to `0`,
and the arcs are brought into canonical order (grouped by source state,
sorted by ascending label, the global iteration order after
`fst::ArcSort` with `ILabelCompare` on the per-state adjacency lists).
The `OutOfRangeState` validation is modelled from the spec (§4.2, §7):
the C translation unit itself contains no index check and no error
channel. -/
def fsa_from_arc_list (states : Nat) (final_states : List Nat) (arc_list : List Arc) :
    Except FsaError FSA :=
  if (∀ q ∈ final_states, q < states) ∧
      (∀ t ∈ arc_list, t.from_state < states ∧ t.to_state < states) then
    .ok { numStates := states
        , start := some 0
        , finals := final_states.map (fun q => (q, wone))
        , arcs := List.insertionSort arcLe arc_list }
  else
    .error .OutOfRangeState

/-! ### Serialization codec

`fsa_to_string` / `fsa_from_string` delegate to the FST library's
`CompactFst` binary reader/writer, whose byte layout is not part of this
repository; the codec below is modelled from the spec (§4.3, §7): a
compact header (magic, version, state count, start, counts) followed by
the label-sorted adjacency data, with structural validation on decode. -/

/-- One token of the serialized representation: a structural natural
number (magic, version, counts, state ids, labels) or a weight. -/
inductive Tok where
  | N : Nat → Tok
  | W : ℚ → Tok
deriving DecidableEq, Repr

/-- Magic number of the persisted format. -/
def MAGIC : Nat := 2125659606

/-- Version of the persisted format. -/
def VERSION : Nat := 1

/-- Start-state field encoding: `0` = unset, `s + 1` = state `s`. -/
def encStart : Option Nat → Nat
  | none => 0
  | some s => s + 1

/-- Start-state field decoding, inverse of `encStart`. -/
def decStart : Nat → Option Nat
  | 0 => none
  | s + 1 => some s

/-- Modelled from the spec: `encode` of the Serialization Codec (§4.3);
the `CompactFst` writer used by `fsa_to_string` is external library
code.  The output is a header (magic, version, state count, start-state
field, final count), the final-state records, the arc count, and the arc
records. -/
def encode (a : FSA) : List Tok :=
  [Tok.N MAGIC, Tok.N VERSION, Tok.N a.numStates, Tok.N (encStart a.start),
    Tok.N a.finals.length] ++
  a.finals.flatMap (fun p => [Tok.N p.1, Tok.W p.2]) ++
  [Tok.N a.arcs.length] ++
  a.arcs.flatMap (fun t => [Tok.N t.from_state, Tok.N t.to_state, Tok.N t.label, Tok.W t.weight])

/-- Read `n` final-state records, returning them with the remaining
tokens, or `none` if the input is too short or ill-shaped. -/
def readFinals : Nat → List Tok → Option (List (Nat × ℚ) × List Tok)
  | 0, l => some ([], l)
  | n + 1, Tok.N q :: Tok.W w :: l =>
    match readFinals n l with
    | some (fs, rest) => some ((q, w) :: fs, rest)
    | none => none
  | _ + 1, _ => none

/-- Read `n` arc records, returning them with the remaining tokens, or
`none` if the input is too short or ill-shaped. -/
def readArcs : Nat → List Tok → Option (List Arc × List Tok)
  | 0, l => some ([], l)
  | n + 1, Tok.N f :: Tok.N t :: Tok.N lb :: Tok.W w :: l =>
    match readArcs n l with
    | some (as, rest) => some (⟨f, t, lb, w⟩ :: as, rest)
    | none => none
  | _ + 1, _ => none

/-- Final stage of `decode`: the arc records have been read; check that
no tokens remain and that all state references are in range. -/
def parseArcsStage (ns st : Nat) (fs : List (Nat × ℚ)) :
    Option (List Arc × List Tok) → Except FsaError FSA
  | some (as, []) =>
    if (∀ p ∈ fs, p.1 < ns) ∧
        (∀ t ∈ as, t.from_state < ns ∧ t.to_state < ns) ∧ st ≤ ns then
      .ok ⟨ns, decStart st, fs, as⟩
    else .error .MalformedEncoding
  | _ => .error .MalformedEncoding

/-- Middle stage of `decode`: the final-state records have been read;
read the arc count and the arc records. -/
def parseFinalsStage (ns st : Nat) :
    Option (List (Nat × ℚ) × List Tok) → Except FsaError FSA
  | some (fs, Tok.N na :: rest2) => parseArcsStage ns st fs (readArcs na rest2)
  | _ => .error .MalformedEncoding

/-- The body of `decode` after the header has been read and the magic
and version fields checked. -/
def parseBody (ns st nf : Nat) (rest : List Tok) : Except FsaError FSA :=
  parseFinalsStage ns st (readFinals nf rest)

/-- Modelled from the spec: `decode` of the Serialization Codec (§4.3,
§7); the `CompactFst` reader used by `fsa_from_string` is external
library code.  Structural validation (truncation, wrong magic or
version, inconsistent counts, out-of-range state references) fails with
`MalformedEncoding` and produces no automaton. -/
def decode (l : List Tok) : Except FsaError FSA :=
  match l with
  | Tok.N m :: Tok.N v :: Tok.N ns :: Tok.N st :: Tok.N nf :: rest =>
    if m = MAGIC ∧ v = VERSION then parseBody ns st nf rest
    else .error .MalformedEncoding
  | _ => .error .MalformedEncoding

/-! ### Accessors -/

/-- Modelled from the spec: `initial_state` (§4.7, §7).  The C function
`fsa_initial_state` returns `Start()` of the dispatched automaton; the
`InvalidAutomaton` failure for an undefined automaton (zero states or an
unset start state) is the spec's typed-error surface for the library's
sentinel start value. -/
def fsa_initial_state (a : FSA) : Except FsaError Nat :=
  if a.numStates = 0 then .error .InvalidAutomaton
  else
    match a.start with
    | some s => .ok s
    | none => .error .InvalidAutomaton

/-! ### Intersection Engine -/

/-- Modelled from the spec: the product construction of the Intersection
Engine (4.4); `fst::Intersect` called by `fsa_intersect` is external
library code.  Product states are the pairs `(sa, sb)` encoded as
`sa * numStates(b) + sb`; a product arc matches equal labels and extends
the two weights; a product state is final iff both components are final,
with final weight `extend` of the two final weights.  (The library
explores pairs lazily from the start pair; unreachable pair states never
contribute an accepting path, so materializing all pairs accepts the
same weighted language.) -/
def fsa_intersect (a b : FSA) : FSA :=
  { numStates := a.numStates * b.numStates
  , start :=
      match a.start, b.start with
      | some sa, some sb => some (sa * b.numStates + sb)
      | _, _ => none
  , finals :=
      (List.range (a.numStates * b.numStates)).filterMap (fun c =>
        (extend (finalWeight a (c / b.numStates)) (finalWeight b (c % b.numStates))).map
          (fun w => (c, w)))
  , arcs :=
      (List.range b.numStates).flatMap (fun sb =>
        a.arcs.flatMap (fun t =>
          (b.arcs.filter (fun u => u.from_state == sb && u.label == t.label)).map (fun u =>
            { from_state := t.from_state * b.numStates + sb
            , to_state := t.to_state * b.numStates + u.to_state
            , label := t.label
            , weight := t.weight + u.weight })))
  }

/-! ### Difference Engine -/

/-- One step of the subset construction over the weight-stripped `b`:
the set of states (as a bitmask) reachable from a state of `S` by an
arc labeled `l`. -/
def detStep (b : FSA) (S l : Nat) : Nat :=
  b.arcs.foldl (fun T t =>
    if S.testBit t.from_state ∧ t.label = l then T ||| 2 ^ t.to_state else T) 0

/-- Iterated subset construction along a string. -/
def detReach (b : FSA) (S : Nat) : List Nat → Nat
  | [] => S
  | l :: s => detReach b (detStep b S l) s

/-- Whether a determinized subset state is final: it contains some
final state of `b`. -/
def detFinal (b : FSA) (S : Nat) : Bool :=
  b.finals.any (fun p => S.testBit p.1)

/-- Modelled from the spec: the Difference Engine (4.5); the
`RmWeightMapper`, `DeterminizeFst` and `DifferenceFst` composition used
by `fsa_difference` is external library code.  `b`'s weights are
stripped, `b` is determinized by subset construction (subset states are
bitmask-encoded, the empty subset being the implicit reject state), and
the product of `a` with the determinized `b` is formed lazily by the
library; all product pairs `(sa, S)`, encoded as
`sa * 2 ^ numStates(b) + S`, are materialized here, which preserves the
weighted language.  A product arc follows an `a`-arc and the
deterministic subset transition; a product state is final iff `a`'s
component is final and the subset component contains no final state of
`b`, with the weight taken from `a` (`b`'s weights are discarded). -/
def fsa_difference (a b : FSA) : FSA :=
  { numStates := a.numStates * 2 ^ b.numStates
  , start :=
      match a.start, b.start with
      | some sa, some sb => some (sa * 2 ^ b.numStates + 2 ^ sb)
      | _, _ => none
  , finals :=
      (List.range (a.numStates * 2 ^ b.numStates)).filterMap (fun c =>
        ((if detFinal b (c % 2 ^ b.numStates) then none
          else finalWeight a (c / 2 ^ b.numStates)).map (fun w => (c, w))))
  , arcs :=
      (List.range (2 ^ b.numStates)).flatMap (fun S =>
        a.arcs.map (fun t =>
          { from_state := t.from_state * 2 ^ b.numStates + S
          , to_state := t.to_state * 2 ^ b.numStates + detStep b S t.label
          , label := t.label
          , weight := t.weight }))
  }

/-- Path reachability in an automaton: from state `p`, reading exactly
the labels of `s`, state `q` is reached. -/
def Reaches (b : FSA) : Nat → List Nat → Nat → Prop
  | p, [], q => p = q
  | p, l :: s, q => ∃ t ∈ b.arcs, t.from_state = p ∧ t.label = l ∧ Reaches b t.to_state s q

/-! ### Shortest-Path / N-Best Engine -/

/-- Arc-weight sum of a path (a list of arcs). -/
def pathWeight (p : List Arc) : Rat := (p.map (fun t => t.weight)).sum

/-- The end state of a path starting at `q`. -/
def endState (q : Nat) (p : List Arc) : Nat := p.foldl (fun _ t => t.to_state) q

/-- Whether an arc list is a path of `a` starting at `q`. -/
def isPath (a : FSA) : Nat → List Arc → Bool
  | _, [] => true
  | q, t :: p => decide (t ∈ a.arcs) && (t.from_state == q) && isPath a t.to_state p

/-- The start state, defaulting to `0`. -/
def startState (a : FSA) : Nat := a.start.getD 0

/-- Total weight of a path from the start state: arc weights plus the
final weight of the end state. -/
def totalW (a : FSA) (p : List Arc) : Rat :=
  pathWeight p + (finalWeight a (endState (startState a) p)).getD 0

/-- An accepting path of `a`: a path from the set start state whose end
state is accepting. -/
def AccPathP (a : FSA) (p : List Arc) : Prop :=
  a.start.isSome = true ∧ isPath a (startState a) p = true ∧
    (finalWeight a (endState (startState a) p)).isSome = true

instance (a : FSA) (p : List Arc) : Decidable (AccPathP a p) := by
  unfold AccPathP
  infer_instance

/-- All paths of `a` from `q` with at most `k` arcs. -/
def pathsLe (a : FSA) (q : Nat) : Nat → List (List Arc)
  | 0 => [[]]
  | k + 1 =>
    [] :: (a.arcs.filter (fun t => t.from_state == q)).flatMap
      (fun t => (pathsLe a t.to_state k).map (fun p => t :: p))

/-- Arc budget of the `n`-best search: every accepting path longer than
`numStates * n` arcs is beaten by at least `n` distinct shorter
accepting paths (cutting cycles under non-negative weights), so it can
never rank among the `n` best and the search need not explore it. -/
def searchFuel (a : FSA) (n : Int) : Nat := a.numStates * n.toNat

/-- The accepting paths of `a` explored by the `n`-best search: all of
them up to the sufficient arc budget `searchFuel`. -/
def accPathsList (a : FSA) (n : Int) : List (List Arc) :=
  (pathsLe a (startState a) (searchFuel a n)).filter
    (fun p => isPath a (startState a) p &&
      (finalWeight a (endState (startState a) p)).isSome)

/-- Ranking of paths: by total weight, ties broken by path length
(a Dijkstra-style search finalizes shorter equal-weight paths first);
remaining ties break by discovery order through the stable sort. -/
def pathLe (a : FSA) (p1 p2 : List Arc) : Prop :=
  totalW a p1 < totalW a p2 ∨
    (totalW a p1 = totalW a p2 ∧ p1.length ≤ p2.length)

instance (a : FSA) : DecidableRel (pathLe a) := fun p q => by
  unfold pathLe
  infer_instance

instance (a : FSA) : IsTotal (List Arc) (pathLe a) :=
  ⟨fun p q => by
    unfold pathLe
    rcases lt_trichotomy (totalW a p) (totalW a q) with h | h | h
    · exact Or.inl (Or.inl h)
    · rcases Nat.le_total p.length q.length with h2 | h2
      · exact Or.inl (Or.inr ⟨h, h2⟩)
      · exact Or.inr (Or.inr ⟨h.symm, h2⟩)
    · exact Or.inr (Or.inl h)⟩

instance (a : FSA) : IsTrans (List Arc) (pathLe a) :=
  ⟨fun _ _ _ h1 h2 => by
    unfold pathLe at h1 h2 ⊢
    rcases h1 with h1 | ⟨h1, h1l⟩ <;> rcases h2 with h2 | ⟨h2, h2l⟩
    · exact Or.inl (lt_trans h1 h2)
    · exact Or.inl (h2 ▸ h1)
    · exact Or.inl (h1 ▸ h2)
    · exact Or.inr ⟨h1.trans h2, le_trans h1l h2l⟩⟩

/-- The explored accepting paths sorted by rank (the sort is stable, so
remaining ties keep discovery order). -/
def sortedAccPaths (a : FSA) (n : Int) : List (List Arc) :=
  List.insertionSort (pathLe a) (accPathsList a n)

/-- The up-to-`n` best accepting paths (`n ≤ 0` selects none). -/
def selected (a : FSA) (n : Int) : List (List Arc) :=
  (sortedAccPaths a n).take n.toNat

/-- Epsilon removal along a path: label-`0` arcs are dropped and their
weights merged (`extend`) into the next real arc; `c` is the pending
carried weight, the second component is the weight carried past the last
real arc. -/
def deEps : Rat → List Arc → (List (Nat × Rat) × Rat)
  | c, [] => ([], c)
  | c, t :: p =>
    if t.label = 0 then deEps (c + t.weight) p
    else ((t.label, c + t.weight) :: (deEps 0 p).1, (deEps 0 p).2)

/-- The chain (label/weight sequence plus final weight) representing one
selected path after epsilon removal. -/
def mkChain (a : FSA) (p : List Arc) : List (Nat × Rat) × Rat :=
  ((deEps 0 p).1,
    (deEps 0 p).2 + (finalWeight a (endState (startState a) p)).getD 0)

/-- The chains of the up-to-`n` best paths. -/
def nBestChains (a : FSA) (n : Int) : List (List (Nat × Rat) × Rat) :=
  (selected a n).map (mkChain a)

/-- State id of position `j` on chain `i` (`j = 0` is the shared start
state `0`; position `j ≥ 1` of chain `i` is `1 + i * K + (j - 1)`). -/
def stateOf (i K j : Nat) : Nat := if j = 0 then 0 else 1 + i * K + (j - 1)

/-- The arcs of chain `i` from position `j0` on. -/
def chainArcs (i K : Nat) : Nat → List (Nat × Rat) → List Arc
  | _, [] => []
  | j0, e :: lw =>
    { from_state := stateOf i K j0, to_state := 1 + i * K + j0
    , label := e.1, weight := e.2 } :: chainArcs i K (j0 + 1) lw

/-- Final entries of the glued automaton: the end state of each chain
(the shared start state for an empty chain) carries the chain's final
weight. -/
def finalsFrom (K : Nat) : Nat → List (List (Nat × Rat) × Rat) → List (Nat × Rat)
  | _, [] => []
  | i0, c :: cs =>
    ((if c.1.isEmpty then 0 else 1 + i0 * K + (c.1.length - 1)), c.2) ::
      finalsFrom K (i0 + 1) cs

/-- All arcs of the glued automaton. -/
def arcsFromChains (K : Nat) : Nat → List (List (Nat × Rat) × Rat) → List Arc
  | _, [] => []
  | i0, c :: cs => chainArcs i0 K 0 c.1 ++ arcsFromChains K (i0 + 1) cs

/-- Glue a list of chains into one automaton sharing start state `0`,
chain `i` occupying states `1 + i * K .. i * K + K`. -/
def glueChains (K : Nat) (cs : List (List (Nat × Rat) × Rat)) : FSA :=
  { numStates := 1 + cs.length * K
  , start := some 0
  , finals := finalsFrom K 0 cs
  , arcs := arcsFromChains K 0 cs }

/-- Modelled from the spec: the Shortest-Path / N-Best Engine (4.6);
`fst::ShortestPath` and `fst::RmEpsilon` called by `fsa_n_best` are
external library code.  The `n` lowest-total-weight accepting paths of
`a` are selected among all its accepting paths, cyclic ones included
(the search's arc budget `searchFuel` loses none of them: a longer path
is outranked by at least `n` distinct cycle-cut ones); ties break by
path length and then discovery order, a deterministic stable order as
the spec requires.  Each selected path becomes its own simple path, the
paths are glued at a common start state, and the mandatory
epsilon-removal post-pass drops label-`0` arcs, merging their weights
into adjacent arcs or the final weight via `extend`.  `n ≤ 0` (and an
input with no accepting path) yields the empty-language automaton. -/
def fsa_n_best (a : FSA) (n : Int) : FSA :=
  glueChains (searchFuel a n + 1) (nBestChains a n)

/-- The label string of a chain. -/
def chainLabels (c : List (Nat × Rat) × Rat) : List Nat := c.1.map (fun e => e.1)

/-- The total weight of a chain. -/
def chainTotal (c : List (Nat × Rat) × Rat) : Rat := (c.1.map (fun e => e.2)).sum + c.2

/-- The weight one chain contributes to a string. -/
def chainWeightOf (c : List (Nat × Rat) × Rat) (s : List Nat) : Option Rat :=
  if s = chainLabels c then some (chainTotal c) else none

/-- The strings of the selected best paths (after epsilon removal). -/
def nBestStrings (a : FSA) (n : Int) : List (List Nat) :=
  (nBestChains a n).map chainLabels

/-- The weights of the selected best paths, in selection order. -/
def nBestWeights (a : FSA) (n : Int) : List Rat :=
  (selected a n).map (totalW a)

/-- The arc (if any) leaving an interior chain state `X` for label `l`,
given the remaining suffix of the chain. -/
def chainStepArcs (X to2 l : Nat) (suf : List (Nat × Rat)) : List Arc :=
  match suf with
  | e :: _ => if e.1 = l then [{ from_state := X, to_state := to2, label := e.1, weight := e.2 }] else []
  | [] => []

/-- The accepting first arcs of each chain for label `l`, leaving the
shared start state. -/
def firstArcs (K l : Nat) : Nat → List (List (Nat × Rat) × Rat) → List Arc
  | _, [] => []
  | i0, c :: cs =>
    (match c.1 with
     | e :: _ =>
       if e.1 = l then
         [{ from_state := 0, to_state := 1 + i0 * K + 0, label := e.1, weight := e.2 }]
       else []
     | [] => []) ++ firstArcs K l (i0 + 1) cs

/-! ### Boundary dispatch (the fsa_t wrapper layer) -/

/-- Representation tags, in declaration order of `enum fsa_type`. -/
def STDVECTOR : Nat := 0

def RMEPSILON : Nat := 1

def INTERSECTION : Nat := 2

def DIFFERENCE : Nat := 3

def COMPACT : Nat := 4

def CONST : Nat := 5

/-- A boundary handle (`struct fsa_t`): a representation tag plus the
automaton its pointer stands for. -/
structure fsa_t where
  type : Nat
  fsa : FSA

/-- The dispatch of `reinterpret`: each known tag yields the underlying
automaton; any other tag falls through the switch to the NULL fallback
(`none`). -/
def reinterpret (w : fsa_t) : Option FSA :=
  if w.type = STDVECTOR then some w.fsa
  else if w.type = RMEPSILON then some w.fsa
  else if w.type = INTERSECTION then some w.fsa
  else if w.type = DIFFERENCE then some w.fsa
  else if w.type = COMPACT then some w.fsa
  else if w.type = CONST then some w.fsa
  else none

/-- The payload used when a fallible constructor yields no automaton:
the C layer returns the tagged wrapper unconditionally. -/
def emptyFSA : FSA := { numStates := 0, start := none, finals := [], arcs := [] }

/-- Boundary `fsa_from_string`: the decoded automaton, wrapped with tag
`COMPACT` unconditionally. -/
def fsa_from_string_t (bytes : List Tok) : fsa_t :=
  { type := COMPACT
  , fsa := match decode bytes with
      | Except.ok f => f
      | Except.error _ => emptyFSA }

/-- Boundary `fsa_from_arc_list`: the built automaton, wrapped with tag
`COMPACT`. -/
def fsa_from_arc_list_t (states : Nat) (final_states : List Nat)
    (arc_list : List Arc) : fsa_t :=
  { type := COMPACT
  , fsa := match fsa_from_arc_list states final_states arc_list with
      | Except.ok f => f
      | Except.error _ => emptyFSA }

/-- Boundary `fsa_n_best`: the handle is unwrapped via `reinterpret` and
the result wrapped with tag `COMPACT`. -/
def fsa_n_best_t (w : fsa_t) (n : Int) : fsa_t :=
  { type := COMPACT, fsa := fsa_n_best ((reinterpret w).getD emptyFSA) n }

/-- Boundary `fsa_intersect`: both handles unwrapped, the product
wrapped with tag `COMPACT`. -/
def fsa_intersect_t (w v : fsa_t) : fsa_t :=
  { type := COMPACT
  , fsa := fsa_intersect ((reinterpret w).getD emptyFSA) ((reinterpret v).getD emptyFSA) }

/-- Boundary `fsa_difference`: both handles unwrapped, the difference
wrapped with tag `COMPACT`. -/
def fsa_difference_t (w v : fsa_t) : fsa_t :=
  { type := COMPACT
  , fsa := fsa_difference ((reinterpret w).getD emptyFSA) ((reinterpret v).getD emptyFSA) }

/-! ### Weight-algebra lemmas -/

theorem combine_none_right : ∀ x : Option ℚ, combine x none = x
  | none => rfl
  | some _ => rfl

theorem combine_comm : ∀ x y : Option ℚ, combine x y = combine y x
  | none, none => rfl
  | none, some _ => rfl
  | some _, none => rfl
  | some a, some b => by simp [combine, min_comm]

theorem extend_comm : ∀ x y : Option ℚ, extend x y = extend y x
  | none, none => rfl
  | none, some _ => rfl
  | some _, none => rfl
  | some a, some b => by simp [extend, add_comm]

theorem extend_none_right : ∀ x : Option ℚ, extend x none = none
  | none => rfl
  | some _ => rfl

theorem extend_assoc : ∀ x y z : Option ℚ, extend (extend x y) z = extend x (extend y z)
  | none, y, z => by cases y <;> cases z <;> rfl
  | some a, none, z => by cases z <;> rfl
  | some a, some b, none => rfl
  | some a, some b, some c => by simp [extend, add_assoc]

/-- `extend` distributes over `combine` on the left. -/
theorem extend_combine_left :
    ∀ x y z : Option ℚ, extend x (combine y z) = combine (extend x y) (extend x z)
  | none, y, z => by cases y <;> cases z <;> rfl
  | some a, none, z => by cases z <;> rfl
  | some a, some b, none => rfl
  | some a, some b, some c => by
      simp [extend, combine, min_add_add_left]

/-- `extend` distributes over `combine` on the right. -/
theorem extend_combine_right :
    ∀ x y z : Option ℚ, extend (combine y z) x = combine (extend y x) (extend z x)
  | x, y, z => by
    rw [extend_comm, extend_combine_left, extend_comm y x, extend_comm z x]

theorem combine_assoc :
    ∀ x y z : Option ℚ, combine (combine x y) z = combine x (combine y z)
  | none, y, z => rfl
  | some a, none, z => rfl
  | some a, some b, none => rfl
  | some a, some b, some c => by simp [combine, min_assoc]

/-! ### `listMin` lemmas -/

theorem listMin_cons (x : ℚ) (xs : List ℚ) :
    listMin (x :: xs) = combine (some x) (listMin xs) := by
  cases h : listMin xs <;> simp [listMin, combine, h]

theorem listMin_append (xs ys : List ℚ) :
    listMin (xs ++ ys) = combine (listMin xs) (listMin ys) := by
  induction xs with
  | nil => simp [listMin, combine]
  | cons x xs ih =>
    rw [List.cons_append, listMin_cons, ih, listMin_cons, combine_assoc]

theorem listMin_map_add (c : ℚ) (xs : List ℚ) :
    listMin (xs.map (fun w => c + w)) = extend (some c) (listMin xs) := by
  induction xs with
  | nil => rfl
  | cons x xs ih =>
    rw [List.map_cons, listMin_cons, ih, listMin_cons, extend_combine_left]
    rfl

theorem combineAll_cons (x : Option ℚ) (l : List (Option ℚ)) :
    combineAll (x :: l) = combine x (combineAll l) := rfl

theorem listMin_flatMap {α : Type} (l : List α) (f : α → List ℚ) :
    listMin (l.flatMap f) = combineAll (l.map (fun x => listMin (f x))) := by
  induction l with
  | nil => rfl
  | cons x l ih =>
    rw [List.flatMap_cons, listMin_append, ih, List.map_cons, combineAll_cons]

theorem combineAll_map_extend_left {α : Type} (c : Option ℚ) (l : List α) (F : α → Option ℚ) :
    combineAll (l.map (fun x => extend c (F x))) = extend c (combineAll (l.map F)) := by
  induction l with
  | nil => simp [combineAll, extend_none_right]
  | cons x l ih =>
    rw [List.map_cons, combineAll_cons, ih, List.map_cons, combineAll_cons,
      extend_combine_left]

/-- The minimum of pairwise `extend`s factors into the `extend` of the two
minima: in the tropical algebra, `min` over `{F x + G y}` is
`(min F) + (min G)`. -/
theorem combineAll_pair_factor {α β : Type} (xs : List α) (ys : List β)
    (F : α → Option ℚ) (G : β → Option ℚ) :
    combineAll (xs.map (fun x => combineAll (ys.map (fun y => extend (F x) (G y))))) =
      extend (combineAll (xs.map F)) (combineAll (ys.map G)) := by
  induction xs with
  | nil => rfl
  | cons x xs ih =>
    rw [List.map_cons, combineAll_cons, ih, combineAll_map_extend_left,
      List.map_cons, combineAll_cons, extend_combine_right]

theorem find?_map_const_pair (l : List Nat) (c : ℚ) (q : Nat) :
    (l.map (fun x => (x, c))).find? (fun p => p.1 == q) =
      if q ∈ l then some (q, c) else none := by
  induction l with
  | nil => simp
  | cons x l ih =>
    by_cases hx : x = q
    · subst hx
      simp [List.find?]
    · have hb : ((x, c).1 == q) = false := by simp [hx]
      simp only [List.map_cons, List.find?_cons, hb, ih, List.mem_cons]
      simp [Ne.symm hx]

/-- C6: a call `build(num_states, final_states, arcs)` satisfying the
preconditions yields an automaton with `num_states` states, start state
`0`, final weight `one()` (`0`) on exactly the listed final states, and
its arcs reordered into canonical order (grouped by source state, sorted
by ascending label). -/
theorem fsa_from_arc_list_spec (states : Nat) (final_states : List Nat) (arc_list : List Arc)
    (hf : ∀ q ∈ final_states, q < states)
    (ha : ∀ t ∈ arc_list, t.from_state < states ∧ t.to_state < states) :
    ∃ m, fsa_from_arc_list states final_states arc_list = .ok m ∧
      m.numStates = states ∧
      m.start = some 0 ∧
      (∀ q, finalWeight m q = if q ∈ final_states then some wone else none) ∧
      m.arcs.Perm arc_list ∧
      List.Sorted arcLe m.arcs := by
  refine ⟨_, by rw [fsa_from_arc_list, if_pos ⟨hf, ha⟩], rfl, rfl, ?_, ?_, ?_⟩
  · intro q
    simp only [finalWeight, find?_map_const_pair]
    by_cases hq : q ∈ final_states <;> simp [hq]
  · exact List.perm_insertionSort arcLe arc_list
  · exact List.sorted_insertionSort arcLe arc_list

theorem fsa_from_arc_list_spec_witness :
    ∃ m, fsa_from_arc_list 3 [2] [⟨1, 2, 7, 2⟩, ⟨0, 1, 5, 1⟩] = .ok m ∧
      m.numStates = 3 ∧
      m.start = some 0 ∧
      (∀ q, finalWeight m q = if q ∈ [2] then some wone else none) ∧
      m.arcs.Perm [⟨1, 2, 7, 2⟩, ⟨0, 1, 5, 1⟩] ∧
      List.Sorted arcLe m.arcs :=
  fsa_from_arc_list_spec 3 [2] [⟨1, 2, 7, 2⟩, ⟨0, 1, 5, 1⟩]
    (by decide) (by decide)

/-- C7: when some final-state entry or some arc endpoint is not a valid
state index, construction fails with the typed error `OutOfRangeState`
and produces no automaton. -/
theorem fsa_from_arc_list_out_of_range (states : Nat) (final_states : List Nat)
    (arc_list : List Arc)
    (h : (∃ q ∈ final_states, ¬ q < states) ∨
      (∃ t ∈ arc_list, ¬ (t.from_state < states ∧ t.to_state < states))) :
    fsa_from_arc_list states final_states arc_list = .error .OutOfRangeState ∧
      ∀ m, fsa_from_arc_list states final_states arc_list ≠ .ok m := by
  have hcond : ¬ ((∀ q ∈ final_states, q < states) ∧
      (∀ t ∈ arc_list, t.from_state < states ∧ t.to_state < states)) := by
    rcases h with ⟨q, hq, hlt⟩ | ⟨t, ht, hlt⟩
    · exact fun hc => hlt (hc.1 q hq)
    · exact fun hc => hlt (hc.2 t ht)
  rw [fsa_from_arc_list, if_neg hcond]
  exact ⟨rfl, fun m h' => by exact Except.noConfusion h'⟩

theorem fsa_from_arc_list_out_of_range_witness :
    fsa_from_arc_list 2 [5] [] = .error .OutOfRangeState ∧
      ∀ m, fsa_from_arc_list 2 [5] [] ≠ .ok m :=
  fsa_from_arc_list_out_of_range 2 [5] []
    (Or.inl ⟨5, by decide, by decide⟩)

theorem readFinals_enc (fs : List (Nat × ℚ)) (rest : List Tok) :
    readFinals fs.length (fs.flatMap (fun p => [Tok.N p.1, Tok.W p.2]) ++ rest) =
      some (fs, rest) := by
  induction fs with
  | nil => rfl
  | cons p fs ih =>
    obtain ⟨q, w⟩ := p
    show readFinals (fs.length + 1)
        (Tok.N q :: Tok.W w :: ((fs.flatMap fun p => [Tok.N p.1, Tok.W p.2]) ++ rest)) =
      some ((q, w) :: fs, rest)
    rw [readFinals, ih]

theorem readArcs_enc (as : List Arc) (rest : List Tok) :
    readArcs as.length
        (as.flatMap (fun t => [Tok.N t.from_state, Tok.N t.to_state, Tok.N t.label,
          Tok.W t.weight]) ++ rest) =
      some (as, rest) := by
  induction as with
  | nil => rfl
  | cons t as ih =>
    obtain ⟨f, s, lb, w⟩ := t
    show readArcs (as.length + 1)
        (Tok.N f :: Tok.N s :: Tok.N lb :: Tok.W w ::
          ((as.flatMap fun t => [Tok.N t.from_state, Tok.N t.to_state, Tok.N t.label,
            Tok.W t.weight]) ++ rest)) =
      some (⟨f, s, lb, w⟩ :: as, rest)
    rw [readArcs, ih]

theorem decStart_encStart : ∀ o : Option Nat, decStart (encStart o) = o
  | none => rfl
  | some _ => rfl

theorem parseBody_enc (ns st : Nat) (fs : List (Nat × ℚ)) (as : List Arc) :
    parseBody ns st fs.length
        (fs.flatMap (fun p => [Tok.N p.1, Tok.W p.2]) ++ Tok.N as.length ::
          as.flatMap (fun t => [Tok.N t.from_state, Tok.N t.to_state, Tok.N t.label,
            Tok.W t.weight])) =
      if (∀ p ∈ fs, p.1 < ns) ∧
          (∀ t ∈ as, t.from_state < ns ∧ t.to_state < ns) ∧ st ≤ ns then
        .ok ⟨ns, decStart st, fs, as⟩
      else .error .MalformedEncoding := by
  have harcs := readArcs_enc as []
  rw [List.append_nil] at harcs
  unfold parseBody
  rw [readFinals_enc]
  show parseArcsStage ns st fs
      (readArcs as.length
        (as.flatMap fun t => [Tok.N t.from_state, Tok.N t.to_state, Tok.N t.label,
          Tok.W t.weight])) = _
  rw [harcs]
  rfl

theorem decode_header (ns st nf : Nat) (rest : List Tok) :
    decode (Tok.N MAGIC :: Tok.N VERSION :: Tok.N ns :: Tok.N st :: Tok.N nf :: rest) =
      parseBody ns st nf rest := by
  simp [decode]

/-- C1: decoding the byte sequence produced by encoding a valid automaton
succeeds and yields an automaton that accepts exactly the same strings
with exactly the same weights. -/
theorem decode_encode (a : FSA) (hv : Valid a) :
    ∃ a2, decode (encode a) = .ok a2 ∧ ∀ s, weightOf a2 s = weightOf a s := by
  refine ⟨a, ?_, fun s => rfl⟩
  obtain ⟨hs, ha, hf⟩ := hv
  have hst : encStart a.start ≤ a.numStates := by
    unfold startOK at hs
    cases h : a.start with
    | none => simp [encStart]
    | some s =>
      rw [h] at hs
      simpa [encStart] using hs
  show decode
      ([Tok.N MAGIC, Tok.N VERSION, Tok.N a.numStates, Tok.N (encStart a.start),
        Tok.N a.finals.length] ++
      a.finals.flatMap (fun p => [Tok.N p.1, Tok.W p.2]) ++
      [Tok.N a.arcs.length] ++
      a.arcs.flatMap (fun t => [Tok.N t.from_state, Tok.N t.to_state, Tok.N t.label,
        Tok.W t.weight])) = .ok a
  simp only [List.cons_append, List.nil_append, List.append_assoc]
  rw [decode_header, parseBody_enc,
    if_pos ⟨fun p hp => (hf p hp).1, fun t ht => ⟨(ha t ht).1, (ha t ht).2.1⟩, hst⟩,
    decStart_encStart]

theorem decode_encode_witness :
    Valid (FSA.mk 2 (some 0) [(1, 0)] [⟨0, 1, 5, 1⟩]) ∧
      ∃ a2, decode (encode (FSA.mk 2 (some 0) [(1, 0)] [⟨0, 1, 5, 1⟩])) = .ok a2 ∧
        ∀ s, weightOf a2 s = weightOf (FSA.mk 2 (some 0) [(1, 0)] [⟨0, 1, 5, 1⟩]) s :=
  ⟨by decide, decode_encode _ (by decide)⟩

theorem length_flatMap_pair (fs : List (Nat × ℚ)) :
    (fs.flatMap (fun p => [Tok.N p.1, Tok.W p.2])).length = 2 * fs.length := by
  induction fs with
  | nil => rfl
  | cons p fs ih =>
    simp only [List.flatMap_cons, List.length_append, ih, List.length_cons, List.length_nil]
    omega

theorem length_flatMap_arc (as : List Arc) :
    (as.flatMap (fun t => [Tok.N t.from_state, Tok.N t.to_state, Tok.N t.label,
      Tok.W t.weight])).length = 4 * as.length := by
  induction as with
  | nil => rfl
  | cons t as ih =>
    simp only [List.flatMap_cons, List.length_append, ih, List.length_cons, List.length_nil]
    omega

theorem readFinals_enc_take (fs : List (Nat × ℚ)) (j : Nat) (hj : j < 2 * fs.length) :
    readFinals fs.length ((fs.flatMap (fun p => [Tok.N p.1, Tok.W p.2])).take j) = none := by
  induction fs generalizing j with
  | nil => simp at hj
  | cons p fs ih =>
    obtain ⟨q, w⟩ := p
    match j with
    | 0 => rfl
    | 1 => rfl
    | j + 2 =>
      show readFinals (fs.length + 1)
          (Tok.N q :: Tok.W w :: ((fs.flatMap fun p => [Tok.N p.1, Tok.W p.2]).take j)) = none
      rw [readFinals, ih j (by simp at hj; omega)]

theorem readArcs_enc_take (as : List Arc) (j : Nat) (hj : j < 4 * as.length) :
    readArcs as.length
      ((as.flatMap (fun t => [Tok.N t.from_state, Tok.N t.to_state, Tok.N t.label,
        Tok.W t.weight])).take j) = none := by
  induction as generalizing j with
  | nil => simp at hj
  | cons t as ih =>
    obtain ⟨f, s, lb, w⟩ := t
    match j with
    | 0 => rfl
    | 1 => rfl
    | 2 => rfl
    | 3 => rfl
    | j + 4 =>
      show readArcs (as.length + 1)
          (Tok.N f :: Tok.N s :: Tok.N lb :: Tok.W w ::
            ((as.flatMap fun t => [Tok.N t.from_state, Tok.N t.to_state, Tok.N t.label,
              Tok.W t.weight]).take j)) = none
      rw [readArcs, ih j (by simp at hj; omega)]

theorem decode_take (a : FSA) (k : Nat) (hk : k < (encode a).length) :
    decode ((encode a).take k) = .error .MalformedEncoding := by
  have hlen : (encode a).length = 6 + 2 * a.finals.length + 4 * a.arcs.length := by
    simp only [encode, List.length_append, List.length_cons, List.length_nil,
      length_flatMap_pair, length_flatMap_arc]
    omega
  rcases k with _ | _ | _ | _ | _ | m
  · rfl
  · rfl
  · rfl
  · rfl
  · rfl
  · have hm : m < 1 + 2 * a.finals.length + 4 * a.arcs.length := by omega
    show decode (Tok.N MAGIC :: Tok.N VERSION :: Tok.N a.numStates ::
        Tok.N (encStart a.start) :: Tok.N a.finals.length ::
        (((a.finals.flatMap (fun p => [Tok.N p.1, Tok.W p.2]) ++ [Tok.N a.arcs.length]) ++
          a.arcs.flatMap (fun t => [Tok.N t.from_state, Tok.N t.to_state,
            Tok.N t.label, Tok.W t.weight])).take m)) = .error .MalformedEncoding
    rw [decode_header, List.append_assoc, List.singleton_append]
    rw [List.take_append_eq_append_take]
    rcases Nat.lt_trichotomy m (2 * a.finals.length) with hlt | heq | hgt
    · have h1 : m - (a.finals.flatMap (fun p => [Tok.N p.1, Tok.W p.2])).length = 0 := by
        rw [length_flatMap_pair]; omega
      rw [h1, List.take_zero, List.append_nil]
      unfold parseBody
      rw [readFinals_enc_take _ m hlt]
      rfl
    · have h1 : m - (a.finals.flatMap (fun p => [Tok.N p.1, Tok.W p.2])).length = 0 := by
        rw [length_flatMap_pair]; omega
      have h2 : (a.finals.flatMap (fun p => [Tok.N p.1, Tok.W p.2])).take m =
          a.finals.flatMap (fun p => [Tok.N p.1, Tok.W p.2]) :=
        List.take_of_length_le (by rw [length_flatMap_pair]; omega)
      rw [h1, List.take_zero, h2]
      unfold parseBody
      rw [readFinals_enc]
      rfl
    · obtain ⟨j, hj⟩ : ∃ j,
          m - (a.finals.flatMap (fun p => [Tok.N p.1, Tok.W p.2])).length = j + 1 :=
        ⟨m - (a.finals.flatMap (fun p => [Tok.N p.1, Tok.W p.2])).length - 1, by
          rw [length_flatMap_pair]; omega⟩
      have hj4 : j < 4 * a.arcs.length := by
        rw [length_flatMap_pair] at hj; omega
      rw [List.take_of_length_le (by rw [length_flatMap_pair]; omega), hj,
        List.take_succ_cons]
      unfold parseBody
      rw [readFinals_enc]
      show parseArcsStage _ _ _
          (readArcs a.arcs.length
            ((a.arcs.flatMap (fun t => [Tok.N t.from_state, Tok.N t.to_state,
              Tok.N t.label, Tok.W t.weight])).take j)) = _
      rw [readArcs_enc_take _ j hj4]
      rfl

theorem decode_error_kind (l : List Tok) (e : FsaError) (h : decode l = .error e) :
    e = .MalformedEncoding := by
  unfold decode parseBody parseFinalsStage parseArcsStage at h
  repeat split at h
  all_goals first
    | exact Except.noConfusion h
    | (injection h with h2; exact h2.symm)

/-- C8: decoding the zero-length byte sequence fails with
`MalformedEncoding`; decoding any strict truncation of a valid encoding
fails with `MalformedEncoding`; every decode failure carries the
`MalformedEncoding` error kind; and a failed decode produces no
(partially-built) automaton. -/
theorem decode_malformed (a : FSA) (k : Nat) (l : List Tok) (e : FsaError)
    (hk : k < (encode a).length) (he : decode l = .error e) :
    decode ([] : List Tok) = .error .MalformedEncoding ∧
      decode ((encode a).take k) = .error .MalformedEncoding ∧
      e = .MalformedEncoding ∧
      ∀ a2, decode ((encode a).take k) ≠ .ok a2 := by
  refine ⟨rfl, decode_take a k hk, decode_error_kind l e he, fun a2 hok => ?_⟩
  rw [decode_take a k hk] at hok
  exact Except.noConfusion hok

/-- C9: `initial_state` returns the start state id of an automaton with
at least one state and a set start state, and fails with
`InvalidAutomaton` on an undefined automaton (zero states or unset
start). -/
theorem fsa_initial_state_spec (a : FSA) (s : Nat) :
    (0 < a.numStates → a.start = some s → fsa_initial_state a = .ok s) ∧
      (a.numStates = 0 ∨ a.start = none →
        fsa_initial_state a = .error .InvalidAutomaton) := by
  constructor
  · intro h0 hs
    unfold fsa_initial_state
    rw [if_neg (by omega), hs]
  · rintro (h | h)
    · unfold fsa_initial_state
      rw [if_pos h]
    · unfold fsa_initial_state
      by_cases h0 : a.numStates = 0
      · rw [if_pos h0]
      · rw [if_neg h0, h]

theorem fsa_initial_state_spec_witness :
    fsa_initial_state (FSA.mk 2 (some 1) [] []) = .ok 1 ∧
      fsa_initial_state (FSA.mk 0 (some 0) [] []) = .error .InvalidAutomaton :=
  ⟨(fsa_initial_state_spec (FSA.mk 2 (some 1) [] []) 1).1 (by decide) rfl,
    (fsa_initial_state_spec (FSA.mk 0 (some 0) [] []) 0).2 (Or.inl rfl)⟩

theorem decode_malformed_witness :
    0 < (encode (FSA.mk 1 (some 0) [] [])).length ∧
      decode ([] : List Tok) = .error .MalformedEncoding ∧
      decode ((encode (FSA.mk 1 (some 0) [] [])).take 0) = .error .MalformedEncoding ∧
      FsaError.MalformedEncoding = .MalformedEncoding ∧
      ∀ a2, decode ((encode (FSA.mk 1 (some 0) [] [])).take 0) ≠ .ok a2 :=
  ⟨by decide, decode_malformed (FSA.mk 1 (some 0) [] []) 0 [] .MalformedEncoding
    (by decide) rfl⟩

theorem enc_lt {qa na qb nb : Nat} (hqa : qa < na) (hqb : qb < nb) :
    qa * nb + qb < na * nb := by
  have h1 : qa * nb + qb < (qa + 1) * nb := by
    have : (qa + 1) * nb = qa * nb + nb := by ring
    omega
  have h2 : (qa + 1) * nb <= na * nb := Nat.mul_le_mul (by omega) (le_refl nb)
  omega

theorem enc_div {qa qb nb : Nat} (hqb : qb < nb) : (qa * nb + qb) / nb = qa := by
  rw [Nat.mul_comm qa nb, Nat.mul_add_div (by omega), Nat.div_eq_of_lt hqb, Nat.add_zero]

theorem enc_mod {qa qb nb : Nat} (hqb : qb < nb) : (qa * nb + qb) % nb = qb := by
  rw [Nat.mul_comm qa nb, Nat.mul_add_mod, Nat.mod_eq_of_lt hqb]

theorem flatMap_range_eq_single {A : Type} (n k : Nat) (F : Nat -> List A) (hk : k < n)
    (h : forall j, j < n -> j ≠ k -> F j = []) : (List.range n).flatMap F = F k := by
  induction n with
  | zero => omega
  | succ n ih =>
    rw [List.range_succ, List.flatMap_append]
    rcases Nat.lt_or_ge k n with hkn | hkn
    · rw [ih hkn (fun j hj hjk => h j (by omega) hjk)]
      have hn : F n = [] := h n (by omega) (by omega)
      simp [hn]
    · have hk2 : k = n := by omega
      subst hk2
      have hnil : (List.range k).flatMap F = [] := by
        rw [List.flatMap_eq_nil_iff]
        intro x hx
        exact h x (by exact Nat.lt_succ_of_lt (List.mem_range.mp hx)) (by
          have := List.mem_range.mp hx
          omega)
      simp [hnil]

theorem filter_flatMap_ite {A B : Type} (l : List A) (p : A -> Bool) (g : A -> List B) :
    (l.filter p).flatMap g = l.flatMap (fun x => if p x then g x else []) := by
  induction l with
  | nil => rfl
  | cons x l ih =>
    cases hx : p x
    · simp [List.filter_cons, hx, ih]
    · simp [List.filter_cons, hx, List.flatMap_cons, ih]

theorem find?_filterMap_range {B : Type} (n k : Nat) (g : Nat -> Option B) :
    (((List.range n).filterMap (fun c => (g c).map (fun w => (c, w)))).find?
        (fun p => p.1 == k)).map (fun p => p.2) =
      if k < n then g k else none := by
  induction n with
  | zero => simp
  | succ n ih =>
    rw [List.range_succ, List.filterMap_append, List.find?_append]
    have hsingle : (List.filterMap (fun c => (g c).map (fun w => (c, w))) [n]) =
        match g n with
        | some w => [(n, w)]
        | none => [] := by
      cases hg : g n <;> simp [List.filterMap, hg]
    rcases Nat.lt_trichotomy k n with hkn | hkn | hkn
    · rw [if_pos (by omega)]
      rw [if_pos hkn] at ih
      cases hfl : ((List.range n).filterMap fun c => (g c).map fun w => (c, w)).find?
          (fun p => p.1 == k) with
      | some pr =>
        rw [hfl] at ih
        show (some pr).map (fun p => p.2) = g k
        exact ih
      | none =>
        rw [hfl] at ih
        simp only [Option.map_none'] at ih
        rw [Option.none_or, hsingle]
        cases hg : g n with
        | some w =>
          have hne : ((n, w).1 == k) = false := by simp; omega
          simp [List.find?_cons, hne, ← ih]
        | none => simp [← ih]
    · subst hkn
      rw [if_pos (by omega)]
      rw [if_neg (by omega)] at ih
      have hfl : ((List.range k).filterMap fun c => (g c).map fun w => (c, w)).find?
          (fun p => p.1 == k) = none := by
        cases hfl2 : ((List.range k).filterMap fun c => (g c).map fun w => (c, w)).find?
            (fun p => p.1 == k) with
        | none => rfl
        | some pr =>
          rw [hfl2] at ih
          simp at ih
      rw [hfl, Option.none_or, hsingle]
      cases hg : g k with
      | some w => simp [List.find?_cons]
      | none => simp
    · rw [if_neg (by omega)]
      rw [if_neg (by omega)] at ih
      have hfl : ((List.range n).filterMap fun c => (g c).map fun w => (c, w)).find?
          (fun p => p.1 == k) = none := by
        cases hfl2 : ((List.range n).filterMap fun c => (g c).map fun w => (c, w)).find?
            (fun p => p.1 == k) with
        | none => rfl
        | some pr =>
          rw [hfl2] at ih
          simp at ih
      rw [hfl, Option.none_or, hsingle]
      cases hg : g n with
      | some w =>
        have hne : ((n, w).1 == k) = false := by simp; omega
        simp [List.find?_cons, hne]
      | none => simp

theorem finalWeight_filterMap_range (n k : Nat) (g : Nat -> Option Rat) (st : Option Nat)
    (ns : Nat) (arcs : List Arc) :
    finalWeight
        (FSA.mk ns st
          ((List.range n).filterMap (fun c => (g c).map (fun w => (c, w)))) arcs) k =
      if k < n then g k else none := by
  unfold finalWeight
  exact find?_filterMap_range n k g

theorem finalWeight_intersect (a b : FSA) {qa qb : Nat}
    (hqa : qa < a.numStates) (hqb : qb < b.numStates) :
    finalWeight (fsa_intersect a b) (qa * b.numStates + qb) =
      extend (finalWeight a qa) (finalWeight b qb) := by
  show finalWeight
      (FSA.mk (a.numStates * b.numStates) ((fsa_intersect a b).start)
        ((List.range (a.numStates * b.numStates)).filterMap (fun c =>
          (extend (finalWeight a (c / b.numStates)) (finalWeight b (c % b.numStates))).map
            (fun w => (c, w))))
        ((fsa_intersect a b).arcs)) (qa * b.numStates + qb) = _
  rw [finalWeight_filterMap_range, if_pos (enc_lt hqa hqb), enc_div hqb, enc_mod hqb]

theorem arcsFrom_intersect (a b : FSA) (qa qb l : Nat) (hqb : qb < b.numStates) :
    arcsFrom (fsa_intersect a b) (qa * b.numStates + qb) l =
      (arcsFrom a qa l).flatMap (fun t =>
        (arcsFrom b qb l).map (fun u =>
          { from_state := qa * b.numStates + qb
          , to_state := t.to_state * b.numStates + u.to_state
          , label := l
          , weight := t.weight + u.weight })) := by
  unfold arcsFrom fsa_intersect
  rw [List.filter_flatMap]
  rw [flatMap_range_eq_single b.numStates qb _ hqb]
  · rw [List.filter_flatMap, filter_flatMap_ite]
    apply congrArg (List.flatMap a.arcs)
    funext t
    rw [List.filter_map]
    by_cases hpa : (t.from_state = qa ∧ t.label = l)
    · obtain ⟨hfrom, hlab⟩ := hpa
      have hcond : (t.from_state == qa && t.label == l) = true := by
        simp [hfrom, hlab]
      rw [hcond, if_pos rfl]
      have hall : List.filter
          ((fun v => v.from_state == qa * b.numStates + qb && v.label == l) ∘
            (fun u => Arc.mk (t.from_state * b.numStates + qb)
              (t.to_state * b.numStates + u.to_state) t.label (t.weight + u.weight)))
          (b.arcs.filter (fun u => u.from_state == qb && u.label == t.label)) =
          b.arcs.filter (fun u => u.from_state == qb && u.label == t.label) := by
        rw [List.filter_eq_self]
        intro u _
        simp [hfrom, hlab]
      rw [hall, hlab]
      apply List.map_congr_left
      intro u _
      simp [hfrom, hlab]
    · have hcond : (t.from_state == qa && t.label == l) = false := by
        rw [Bool.eq_false_iff]
        intro hc
        rw [Bool.and_eq_true, beq_iff_eq, beq_iff_eq] at hc
        exact hpa hc
      rw [hcond]
      have hnil2 : List.filter
          ((fun v => v.from_state == qa * b.numStates + qb && v.label == l) ∘
            (fun u => Arc.mk (t.from_state * b.numStates + qb)
              (t.to_state * b.numStates + u.to_state) t.label (t.weight + u.weight)))
          (b.arcs.filter (fun u => u.from_state == qb && u.label == t.label)) = [] := by
        rw [List.filter_eq_nil_iff]
        intro u _
        simp only [Function.comp_apply, Bool.and_eq_true, beq_iff_eq, not_and]
        intro henc hlab2
        apply hpa
        have h2 : t.from_state * b.numStates = qa * b.numStates := by omega
        exact ⟨Nat.eq_of_mul_eq_mul_right (by omega) h2, hlab2⟩
      rw [hnil2]
      simp
  · intro j hj hjk
    rw [List.filter_flatMap]
    rw [List.flatMap_eq_nil_iff]
    intro t _
    rw [List.filter_map]
    have hnil : (List.filter
        ((fun v => v.from_state == qa * b.numStates + qb && v.label == l) ∘
          (fun u => Arc.mk (t.from_state * b.numStates + j)
            (t.to_state * b.numStates + u.to_state) t.label (t.weight + u.weight)))
        (b.arcs.filter (fun u => u.from_state == j && u.label == t.label))) = [] := by
      rw [List.filter_eq_nil_iff]
      intro u _
      simp only [Function.comp_apply, Bool.and_eq_true, beq_iff_eq, not_and]
      intro henc
      have : j = qb := by
        have h1 := congrArg (fun x => x % b.numStates) henc
        simp only at h1
        rw [enc_mod hj, enc_mod hqb] at h1
        exact h1
      exact absurd this hjk
    rw [hnil]
    rfl

theorem extend_split (x y : Rat) (A B : Option Rat) :
    extend (some (x + y)) (extend A B) =
      extend (extend (some x) A) (extend (some y) B) := by
  cases A with
  | none => rfl
  | some a0 =>
    cases B with
    | none => rfl
    | some b0 => exact congrArg some (by ring)

theorem extend_isSome :
    ∀ x y : Option Rat, (extend x y).isSome = (x.isSome && y.isSome)
  | none, _ => rfl
  | some _, none => rfl
  | some _, some _ => rfl

theorem listMin_accWeights_cons (x : FSA) (q l : Nat) (s : List Nat) :
    listMin (accWeights x q (l :: s)) =
      combineAll ((arcsFrom x q l).map (fun t =>
        extend (some t.weight) (listMin (accWeights x t.to_state s)))) := by
  simp only [accWeights]
  rw [listMin_flatMap]
  apply congrArg
  apply List.map_congr_left
  intro t _
  rw [listMin_map_add]

theorem mem_arcsFrom_mem (x : FSA) {q l : Nat} {t : Arc} (h : t ∈ arcsFrom x q l) :
    t ∈ x.arcs :=
  (List.mem_filter.mp h).1

theorem flatMap_congr_mem {A B : Type} (l : List A) (f g : A -> List B)
    (h : ∀ x ∈ l, f x = g x) : l.flatMap f = l.flatMap g := by
  induction l with
  | nil => rfl
  | cons x l ih =>
    rw [List.flatMap_cons, List.flatMap_cons, h x (by simp),
      ih (fun y hy => h y (by simp [hy]))]

theorem combineAll_append (xs ys : List (Option Rat)) :
    combineAll (xs ++ ys) = combine (combineAll xs) (combineAll ys) := by
  induction xs with
  | nil => rfl
  | cons x xs ih =>
    rw [List.cons_append, combineAll_cons, ih, combineAll_cons, combine_assoc]

theorem combineAll_flatMap {A : Type} (l : List A) (f : A -> List (Option Rat)) :
    combineAll (l.flatMap f) = combineAll (l.map (fun x => combineAll (f x))) := by
  induction l with
  | nil => rfl
  | cons x l ih =>
    rw [List.flatMap_cons, combineAll_append, ih, List.map_cons, combineAll_cons]

theorem accWeights_intersect (a b : FSA) (ha : Valid a) (hb : Valid b) (s : List Nat) :
    ∀ qa qb, qa < a.numStates → qb < b.numStates →
      listMin (accWeights (fsa_intersect a b) (qa * b.numStates + qb) s) =
        extend (listMin (accWeights a qa s)) (listMin (accWeights b qb s)) := by
  induction s with
  | nil =>
    intro qa qb hqa hqb
    show listMin
        (match finalWeight (fsa_intersect a b) (qa * b.numStates + qb) with
          | some w => [w]
          | none => []) = _
    rw [finalWeight_intersect a b hqa hqb]
    cases hfa : finalWeight a qa <;> cases hfb : finalWeight b qb <;>
      simp [accWeights, hfa, hfb, listMin, extend]
  | cons l s ih =>
    intro qa qb hqa hqb
    have hinner : ∀ t ∈ arcsFrom a qa l,
        List.map (fun v =>
            extend (some v.weight)
              (listMin (accWeights (fsa_intersect a b) v.to_state s)))
          ((arcsFrom b qb l).map (fun u =>
            Arc.mk (qa * b.numStates + qb) (t.to_state * b.numStates + u.to_state) l
              (t.weight + u.weight))) =
        (arcsFrom b qb l).map (fun u =>
          extend (extend (some t.weight) (listMin (accWeights a t.to_state s)))
            (extend (some u.weight) (listMin (accWeights b u.to_state s)))) := by
      intro t ht
      rw [List.map_map]
      apply List.map_congr_left
      intro u hu
      show extend (some (t.weight + u.weight))
          (listMin (accWeights (fsa_intersect a b)
            (t.to_state * b.numStates + u.to_state) s)) = _
      rw [ih t.to_state u.to_state
        (ha.2.1 t (mem_arcsFrom_mem a ht)).2.1
        (hb.2.1 u (mem_arcsFrom_mem b hu)).2.1]
      rw [extend_split]
    rw [listMin_accWeights_cons, arcsFrom_intersect a b qa qb l hqb, List.map_flatMap,
      flatMap_congr_mem _ _ _ hinner, combineAll_flatMap,
      combineAll_pair_factor (arcsFrom a qa l) (arcsFrom b qb l)
        (fun t => extend (some t.weight) (listMin (accWeights a t.to_state s)))
        (fun u => extend (some u.weight) (listMin (accWeights b u.to_state s))),
      listMin_accWeights_cons a qa l s, listMin_accWeights_cons b qb l s]

theorem start_spec (a : FSA) (ha : Valid a) :
    ∃ sa, a.start = some sa ∧ sa < a.numStates := by
  have h := ha.1
  unfold startOK at h
  cases hs : a.start with
  | none =>
    rw [hs] at h
    exact h.elim
  | some sa =>
    rw [hs] at h
    exact ⟨sa, rfl, h⟩

theorem weightOf_intersect (a b : FSA) (ha : Valid a) (hb : Valid b) (s : List Nat) :
    weightOf (fsa_intersect a b) s = extend (weightOf a s) (weightOf b s) := by
  obtain ⟨sa, hsa, hsalt⟩ := start_spec a ha
  obtain ⟨sb, hsb, hsblt⟩ := start_spec b hb
  have hstart : (fsa_intersect a b).start = some (sa * b.numStates + sb) := by
    show (match a.start, b.start with
      | some sa, some sb => some (sa * b.numStates + sb)
      | _, _ => none) = _
    rw [hsa, hsb]
  unfold weightOf
  rw [hstart, hsa, hsb]
  exact accWeights_intersect a b ha hb s sa sb hsalt hsblt

/-- C3: the language accepted by `intersect(a,b)` is the set
intersection of the languages of `a` and `b`, each accepted string's
weight being the `extend` (sum) of its weights in `a` and in `b`; and
`intersect(a,b)` and `intersect(b,a)` accept the same language with
equal weights. -/
theorem fsa_intersect_spec (a b : FSA) (ha : Valid a) (hb : Valid b) (s : List Nat) :
    weightOf (fsa_intersect a b) s = extend (weightOf a s) (weightOf b s) ∧
      (accepts (fsa_intersect a b) s ↔ accepts a s ∧ accepts b s) ∧
      weightOf (fsa_intersect a b) s = weightOf (fsa_intersect b a) s := by
  refine ⟨weightOf_intersect a b ha hb s, ?_, ?_⟩
  · unfold accepts
    rw [weightOf_intersect a b ha hb s, extend_isSome]
    simp
  · rw [weightOf_intersect a b ha hb s, weightOf_intersect b a hb ha s, extend_comm]

theorem fsa_intersect_spec_witness :
    Valid (FSA.mk 2 (some 0) [(1, 0)] [⟨0, 1, 5, 1⟩]) ∧
      Valid (FSA.mk 2 (some 0) [(1, 0)] [⟨0, 1, 5, 2⟩, ⟨0, 0, 6, 1⟩]) ∧
      (weightOf
          (fsa_intersect (FSA.mk 2 (some 0) [(1, 0)] [⟨0, 1, 5, 1⟩])
            (FSA.mk 2 (some 0) [(1, 0)] [⟨0, 1, 5, 2⟩, ⟨0, 0, 6, 1⟩])) [5] =
        extend (weightOf (FSA.mk 2 (some 0) [(1, 0)] [⟨0, 1, 5, 1⟩]) [5])
          (weightOf (FSA.mk 2 (some 0) [(1, 0)] [⟨0, 1, 5, 2⟩, ⟨0, 0, 6, 1⟩]) [5]) ∧
        (accepts
            (fsa_intersect (FSA.mk 2 (some 0) [(1, 0)] [⟨0, 1, 5, 1⟩])
              (FSA.mk 2 (some 0) [(1, 0)] [⟨0, 1, 5, 2⟩, ⟨0, 0, 6, 1⟩])) [5] ↔
          accepts (FSA.mk 2 (some 0) [(1, 0)] [⟨0, 1, 5, 1⟩]) [5] ∧
            accepts (FSA.mk 2 (some 0) [(1, 0)] [⟨0, 1, 5, 2⟩, ⟨0, 0, 6, 1⟩]) [5]) ∧
        weightOf
            (fsa_intersect (FSA.mk 2 (some 0) [(1, 0)] [⟨0, 1, 5, 1⟩])
              (FSA.mk 2 (some 0) [(1, 0)] [⟨0, 1, 5, 2⟩, ⟨0, 0, 6, 1⟩])) [5] =
          weightOf
            (fsa_intersect (FSA.mk 2 (some 0) [(1, 0)] [⟨0, 1, 5, 2⟩, ⟨0, 0, 6, 1⟩])
              (FSA.mk 2 (some 0) [(1, 0)] [⟨0, 1, 5, 1⟩])) [5]) :=
  ⟨by decide, by decide,
    fsa_intersect_spec (FSA.mk 2 (some 0) [(1, 0)] [⟨0, 1, 5, 1⟩])
      (FSA.mk 2 (some 0) [(1, 0)] [⟨0, 1, 5, 2⟩, ⟨0, 0, 6, 1⟩])
      (by decide) (by decide) [5]⟩

theorem detStep_lt (b : FSA) (hb : ∀ t ∈ b.arcs, t.to_state < b.numStates)
    (S l : Nat) : detStep b S l < 2 ^ b.numStates := by
  unfold detStep
  suffices h : ∀ (L : List Arc), (∀ t ∈ L, t.to_state < b.numStates) →
      ∀ T, T < 2 ^ b.numStates →
        (L.foldl (fun T t =>
          if S.testBit t.from_state ∧ t.label = l then T ||| 2 ^ t.to_state else T) T) <
          2 ^ b.numStates by
    exact h b.arcs hb 0 (Nat.pos_pow_of_pos _ (by omega))
  intro L
  induction L with
  | nil => intro _ T hT; exact hT
  | cons t L ih =>
    intro hL T hT
    rw [List.foldl_cons]
    apply ih (fun u hu => hL u (by simp [hu]))
    by_cases hc : S.testBit t.from_state ∧ t.label = l
    · rw [if_pos hc]
      exact Nat.or_lt_two_pow hT (Nat.pow_lt_pow_right (by omega) (hL t (by simp)))
    · rw [if_neg hc]
      exact hT

theorem testBit_detStep (b : FSA) (S l i : Nat) :
    (detStep b S l).testBit i = true ↔
      ∃ t ∈ b.arcs, S.testBit t.from_state = true ∧ t.label = l ∧ t.to_state = i := by
  unfold detStep
  suffices h : ∀ (L : List Arc) (T : Nat),
      ((L.foldl (fun T t =>
        if S.testBit t.from_state ∧ t.label = l then T ||| 2 ^ t.to_state else T) T).testBit i
          = true) ↔
        (T.testBit i = true ∨
          ∃ t ∈ L, S.testBit t.from_state = true ∧ t.label = l ∧ t.to_state = i) by
    rw [h b.arcs 0, Nat.zero_testBit]
    simp
  intro L
  induction L with
  | nil => intro T; simp
  | cons t L ih =>
    intro T
    rw [List.foldl_cons, ih]
    by_cases hc : S.testBit t.from_state ∧ t.label = l
    · rw [if_pos hc, Nat.testBit_or, Nat.testBit_two_pow]
      constructor
      · rintro (htb | hrest)
        · rcases Bool.or_eq_true_iff.mp htb with h1 | h1
          · exact Or.inl h1
          · exact Or.inr ⟨t, by simp, hc.1, hc.2, decide_eq_true_eq.mp h1⟩
        · rcases hrest with ⟨u, hu, h1, h2, h3⟩
          exact Or.inr ⟨u, by simp [hu], h1, h2, h3⟩
      · rintro (htb | ⟨u, hu, h1, h2, h3⟩)
        · exact Or.inl (by rw [htb]; simp)
        · rcases List.mem_cons.mp hu with rfl | hu2
          · exact Or.inl (by simp [h3])
          · exact Or.inr ⟨u, hu2, h1, h2, h3⟩
    · rw [if_neg hc]
      constructor
      · rintro (htb | hrest)
        · exact Or.inl htb
        · rcases hrest with ⟨u, hu, h1, h2, h3⟩
          exact Or.inr ⟨u, by simp [hu], h1, h2, h3⟩
      · rintro (htb | ⟨u, hu, h1, h2, h3⟩)
        · exact Or.inl htb
        · rcases List.mem_cons.mp hu with rfl | hu2
          · exact absurd ⟨h1, h2⟩ hc
          · exact Or.inr ⟨u, hu2, h1, h2, h3⟩

theorem testBit_detReach (b : FSA) (s : List Nat) :
    ∀ S q, (detReach b S s).testBit q = true ↔
      ∃ p, S.testBit p = true ∧ Reaches b p s q := by
  induction s with
  | nil =>
    intro S q
    show S.testBit q = true ↔ ∃ p, S.testBit p = true ∧ p = q
    constructor
    · intro h; exact ⟨q, h, rfl⟩
    · rintro ⟨p, hp, rfl⟩; exact hp
  | cons l s ih =>
    intro S q
    show (detReach b (detStep b S l) s).testBit q = true ↔ _
    rw [ih]
    constructor
    · rintro ⟨p2, hp2, hr⟩
      rcases (testBit_detStep b S l p2).mp hp2 with ⟨t, ht, h1, h2, h3⟩
      exact ⟨t.from_state, h1, t, ht, rfl, h2, h3 ▸ hr⟩
    · rintro ⟨p, hp, t, ht, h1, h2, hr⟩
      exact ⟨t.to_state, (testBit_detStep b S l t.to_state).mpr ⟨t, ht, h1 ▸ hp, h2, rfl⟩, hr⟩

theorem accWeights_ne_nil_iff (x : FSA) (s : List Nat) :
    ∀ q, accWeights x q s ≠ [] ↔
      ∃ r, Reaches x q s r ∧ (finalWeight x r).isSome = true := by
  induction s with
  | nil =>
    intro q
    show (match finalWeight x q with
      | some w => [w]
      | none => []) ≠ [] ↔ ∃ r, q = r ∧ (finalWeight x r).isSome = true
    cases hf : finalWeight x q <;> simp [hf]
  | cons l s ih =>
    intro q
    show (arcsFrom x q l).flatMap
        (fun t => (accWeights x t.to_state s).map (fun w => t.weight + w)) ≠ [] ↔ _
    constructor
    · intro hne
      have : ∃ t ∈ arcsFrom x q l,
          (accWeights x t.to_state s).map (fun w => t.weight + w) ≠ [] := by
        by_contra hall
        push_neg at hall
        exact hne (List.flatMap_eq_nil_iff.mpr hall)
      rcases this with ⟨t, ht, hmap⟩
      have hnn : accWeights x t.to_state s ≠ [] := by
        intro h0
        exact hmap (by rw [h0]; rfl)
      rcases (ih t.to_state).mp hnn with ⟨r, hr, hf⟩
      have htm := List.mem_filter.mp ht
      have hq : t.from_state = q := by
        have := htm.2
        simp only [Bool.and_eq_true, beq_iff_eq] at this
        exact this.1
      have hl : t.label = l := by
        have := htm.2
        simp only [Bool.and_eq_true, beq_iff_eq] at this
        exact this.2
      exact ⟨r, ⟨t, htm.1, hq, hl, hr⟩, hf⟩
    · rintro ⟨r, ⟨t, ht, h1, h2, hr⟩, hf⟩
      have hnn : accWeights x t.to_state s ≠ [] := (ih t.to_state).mpr ⟨r, hr, hf⟩
      intro h0
      rw [List.flatMap_eq_nil_iff] at h0
      have htmem : t ∈ arcsFrom x q l := by
        rw [arcsFrom, List.mem_filter]
        exact ⟨ht, by simp [h1, h2]⟩
      have := h0 t htmem
      rw [List.map_eq_nil_iff] at this
      exact hnn this

theorem listMin_eq_none_iff (xs : List Rat) : listMin xs = none ↔ xs = [] := by
  cases xs with
  | nil => simp [listMin]
  | cons x xs =>
    rw [listMin_cons]
    cases h : listMin xs <;> simp [combine]

theorem detFinal_iff (b : FSA) (S : Nat) :
    detFinal b S = true ↔
      ∃ q, S.testBit q = true ∧ (finalWeight b q).isSome = true := by
  unfold detFinal
  rw [List.any_eq_true]
  constructor
  · rintro ⟨p, hp, htb⟩
    refine ⟨p.1, htb, ?_⟩
    unfold finalWeight
    cases hfind : List.find? (fun x => x.1 == p.1) b.finals with
    | none =>
      have hs : (List.find? (fun x => x.1 == p.1) b.finals).isSome = true :=
        List.find?_isSome.mpr ⟨p, hp, by simp⟩
      rw [hfind] at hs
      simp at hs
    | some v => rfl
  · rintro ⟨q, htb, hf⟩
    unfold finalWeight at hf
    cases hfind : List.find? (fun p => p.1 == q) b.finals with
    | none =>
      rw [hfind] at hf
      simp at hf
    | some v =>
      have hvmem := List.mem_of_find?_eq_some hfind
      have hvq : v.1 = q := by
        have := List.find?_some hfind
        simpa using this
      exact ⟨v, hvmem, hvq ▸ htb⟩

theorem finalWeight_difference (a b : FSA) {qa S : Nat}
    (hqa : qa < a.numStates) (hS : S < 2 ^ b.numStates) :
    finalWeight (fsa_difference a b) (qa * 2 ^ b.numStates + S) =
      if detFinal b S then none else finalWeight a qa := by
  show finalWeight
      (FSA.mk (a.numStates * 2 ^ b.numStates) ((fsa_difference a b).start)
        ((List.range (a.numStates * 2 ^ b.numStates)).filterMap (fun c =>
          ((if detFinal b (c % 2 ^ b.numStates) then none
            else finalWeight a (c / 2 ^ b.numStates)).map (fun w => (c, w)))))
        ((fsa_difference a b).arcs)) (qa * 2 ^ b.numStates + S) = _
  rw [finalWeight_filterMap_range, if_pos (enc_lt hqa hS), enc_div hS, enc_mod hS]

theorem arcsFrom_difference (a b : FSA) (qa S l : Nat) (hS : S < 2 ^ b.numStates) :
    arcsFrom (fsa_difference a b) (qa * 2 ^ b.numStates + S) l =
      (arcsFrom a qa l).map (fun t =>
        { from_state := qa * 2 ^ b.numStates + S
        , to_state := t.to_state * 2 ^ b.numStates + detStep b S l
        , label := l
        , weight := t.weight }) := by
  unfold arcsFrom fsa_difference
  rw [List.filter_flatMap]
  rw [flatMap_range_eq_single (2 ^ b.numStates) S _ hS]
  · rw [List.filter_map]
    have hfc : List.filter
        ((fun v => v.from_state == qa * 2 ^ b.numStates + S && v.label == l) ∘
          (fun t => Arc.mk (t.from_state * 2 ^ b.numStates + S)
            (t.to_state * 2 ^ b.numStates + detStep b S t.label) t.label t.weight))
        a.arcs =
        List.filter (fun t => t.from_state == qa && t.label == l) a.arcs := by
      apply List.filter_congr
      intro t _
      show (t.from_state * 2 ^ b.numStates + S == qa * 2 ^ b.numStates + S &&
          t.label == l) = (t.from_state == qa && t.label == l)
      have hfrom : (t.from_state * 2 ^ b.numStates + S == qa * 2 ^ b.numStates + S) =
          (t.from_state == qa) := by
        by_cases h : t.from_state = qa
        · simp [h]
        · have hne : t.from_state * 2 ^ b.numStates + S ≠ qa * 2 ^ b.numStates + S := by
            intro hc
            have h2 : t.from_state * 2 ^ b.numStates = qa * 2 ^ b.numStates := by omega
            exact h (Nat.eq_of_mul_eq_mul_right (Nat.pos_pow_of_pos _ (by omega)) h2)
          simp [h, hne]
      rw [hfrom]
    rw [hfc]
    apply List.map_congr_left
    intro t ht
    have htf := List.mem_filter.mp ht
    have hcond := htf.2
    simp only [Bool.and_eq_true, beq_iff_eq] at hcond
    rw [hcond.1, hcond.2]
  · intro j hj hjk
    rw [List.filter_map]
    have hnil : List.filter
        ((fun v => v.from_state == qa * 2 ^ b.numStates + S && v.label == l) ∘
          (fun t => Arc.mk (t.from_state * 2 ^ b.numStates + j)
            (t.to_state * 2 ^ b.numStates + detStep b j t.label) t.label t.weight))
        a.arcs = [] := by
      rw [List.filter_eq_nil_iff]
      intro t _
      simp only [Function.comp_apply, Bool.and_eq_true, beq_iff_eq, not_and]
      intro henc
      have hj2 : j = S := by
        have h1 := congrArg (fun x => x % 2 ^ b.numStates) henc
        simp only at h1
        rw [enc_mod hj, enc_mod hS] at h1
        exact h1
      exact absurd hj2 hjk
    rw [hnil]
    rfl

theorem accWeights_difference (a b : FSA) (ha : Valid a) (hb : Valid b) (s : List Nat) :
    ∀ qa S, qa < a.numStates → S < 2 ^ b.numStates →
      accWeights (fsa_difference a b) (qa * 2 ^ b.numStates + S) s =
        if detFinal b (detReach b S s) then [] else accWeights a qa s := by
  induction s with
  | nil =>
    intro qa S hqa hS
    show (match finalWeight (fsa_difference a b) (qa * 2 ^ b.numStates + S) with
      | some w => [w]
      | none => []) = _
    rw [finalWeight_difference a b hqa hS]
    show _ = if detFinal b S then [] else accWeights a qa []
    cases hdf : detFinal b S
    · rw [if_neg (by simp), if_neg (by simp)]
      rfl
    · rfl
  | cons l s ih =>
    intro qa S hqa hS
    show (arcsFrom (fsa_difference a b) (qa * 2 ^ b.numStates + S) l).flatMap
        (fun v => (accWeights (fsa_difference a b) v.to_state s).map
          (fun w => v.weight + w)) = _
    rw [arcsFrom_difference a b qa S l hS, List.flatMap_map]
    have hstep : ∀ t ∈ arcsFrom a qa l,
        ((accWeights (fsa_difference a b)
          (t.to_state * 2 ^ b.numStates + detStep b S l) s).map
            (fun w => t.weight + w)) =
        ((if detFinal b (detReach b (detStep b S l) s) then []
          else accWeights a t.to_state s).map (fun w => t.weight + w)) := by
      intro t ht
      rw [ih t.to_state (detStep b S l)
        (ha.2.1 t (mem_arcsFrom_mem a ht)).2.1
        (detStep_lt b (fun u hu => (hb.2.1 u hu).2.1) S l)]
    rw [flatMap_congr_mem _ _ _ hstep]
    show _ = if detFinal b (detReach b (detStep b S l) s) then []
      else accWeights a qa (l :: s)
    cases hdf : detFinal b (detReach b (detStep b S l) s)
    · rw [if_neg (by simp)]
      show _ = (arcsFrom a qa l).flatMap
        (fun t => (accWeights a t.to_state s).map (fun w => t.weight + w))
      apply flatMap_congr_mem
      intro t _
      simp
    · rw [if_pos rfl]
      rw [List.flatMap_eq_nil_iff]
      intro t _
      simp

theorem weightOf_difference (a b : FSA) (ha : Valid a) (hb : Valid b) (s : List Nat) :
    weightOf (fsa_difference a b) s = if accepts b s then none else weightOf a s := by
  obtain ⟨sa, hsa, hsalt⟩ := start_spec a ha
  obtain ⟨sb, hsb, hsblt⟩ := start_spec b hb
  have hstart : (fsa_difference a b).start =
      some (sa * 2 ^ b.numStates + 2 ^ sb) := by
    show (match a.start, b.start with
      | some sa, some sb => some (sa * 2 ^ b.numStates + 2 ^ sb)
      | _, _ => none) = _
    rw [hsa, hsb]
  have h1 : weightOf (fsa_difference a b) s =
      listMin (accWeights (fsa_difference a b)
        (sa * 2 ^ b.numStates + 2 ^ sb) s) := by
    unfold weightOf
    rw [hstart]
  have h2 : weightOf a s = listMin (accWeights a sa s) := by
    unfold weightOf
    rw [hsa]
  have hw : weightOf b s = listMin (accWeights b sb s) := by
    unfold weightOf
    rw [hsb]
  have hacc : accepts b s ↔ detFinal b (detReach b (2 ^ sb) s) = true := by
    unfold accepts
    rw [hw, detFinal_iff]
    constructor
    · intro h
      have hne : accWeights b sb s ≠ [] := by
        intro h0
        rw [h0] at h
        simp [listMin] at h
      rcases (accWeights_ne_nil_iff b s sb).mp hne with ⟨r, hr, hf⟩
      refine ⟨r, ?_, hf⟩
      rw [testBit_detReach]
      exact ⟨sb, by simp [Nat.testBit_two_pow], hr⟩
    · rintro ⟨q, htb, hf⟩
      rw [testBit_detReach] at htb
      rcases htb with ⟨p, hp, hr⟩
      have hpsb : p = sb := by
        rw [Nat.testBit_two_pow] at hp
        exact (decide_eq_true_eq.mp hp).symm
      subst hpsb
      have hne : accWeights b p s ≠ [] :=
        (accWeights_ne_nil_iff b s p).mpr ⟨q, hr, hf⟩
      cases hlm : listMin (accWeights b p s) with
      | none => exact absurd ((listMin_eq_none_iff _).mp hlm) hne
      | some w => simp [hlm]
  rw [h1, h2,
    accWeights_difference a b ha hb s sa (2 ^ sb) hsalt
      (Nat.pow_lt_pow_right (by omega) hsblt)]
  by_cases hbs : accepts b s
  · rw [if_pos hbs, if_pos (hacc.mp hbs)]
    rfl
  · rw [if_neg hbs]
    have hdf : detFinal b (detReach b (2 ^ sb) s) = false := by
      cases hd : detFinal b (detReach b (2 ^ sb) s)
      · rfl
      · exact absurd (hacc.mpr hd) hbs
    rw [if_neg (by simp [hdf])]

/-- C2: a string is accepted by `difference(a,b)` iff it is accepted by
`a` and not accepted by `b`, its weight taken from `a` (`b`'s weights
are discarded); in particular `difference(a,a)` accepts no strings. -/
theorem fsa_difference_spec (a b : FSA) (ha : Valid a) (hb : Valid b) (s : List Nat) :
    (accepts (fsa_difference a b) s ↔ accepts a s ∧ ¬ accepts b s) ∧
      (¬ accepts b s → weightOf (fsa_difference a b) s = weightOf a s) ∧
      ¬ accepts (fsa_difference a a) s := by
  refine ⟨⟨?_, ?_⟩, ?_, ?_⟩
  · intro hd
    by_cases hbs : accepts b s
    · exfalso
      have hwd := weightOf_difference a b ha hb s
      rw [if_pos hbs] at hwd
      unfold accepts at hd
      rw [hwd] at hd
      simp at hd
    · have hwd := weightOf_difference a b ha hb s
      rw [if_neg hbs] at hwd
      refine ⟨?_, hbs⟩
      unfold accepts at hd ⊢
      rw [hwd] at hd
      exact hd
  · rintro ⟨has, hbs⟩
    have hwd := weightOf_difference a b ha hb s
    rw [if_neg hbs] at hwd
    unfold accepts at has ⊢
    rw [hwd]
    exact has
  · intro hbs
    have hwd := weightOf_difference a b ha hb s
    rw [if_neg hbs] at hwd
    exact hwd
  · intro hd
    have hwd := weightOf_difference a a ha ha s
    by_cases has : accepts a s
    · rw [if_pos has] at hwd
      unfold accepts at hd
      rw [hwd] at hd
      simp at hd
    · rw [if_neg has] at hwd
      unfold accepts at hd has
      rw [hwd] at hd
      exact has hd

theorem fsa_difference_spec_witness :
    Valid (FSA.mk 2 (some 0) [(1, 0)] [⟨0, 1, 5, 1⟩]) ∧
      Valid (FSA.mk 2 (some 0) [(1, 0)] [⟨0, 1, 6, 1⟩]) ∧
      ((accepts
          (fsa_difference (FSA.mk 2 (some 0) [(1, 0)] [⟨0, 1, 5, 1⟩])
            (FSA.mk 2 (some 0) [(1, 0)] [⟨0, 1, 6, 1⟩])) [5] ↔
        accepts (FSA.mk 2 (some 0) [(1, 0)] [⟨0, 1, 5, 1⟩]) [5] ∧
          ¬ accepts (FSA.mk 2 (some 0) [(1, 0)] [⟨0, 1, 6, 1⟩]) [5]) ∧
      (¬ accepts (FSA.mk 2 (some 0) [(1, 0)] [⟨0, 1, 6, 1⟩]) [5] →
        weightOf
            (fsa_difference (FSA.mk 2 (some 0) [(1, 0)] [⟨0, 1, 5, 1⟩])
              (FSA.mk 2 (some 0) [(1, 0)] [⟨0, 1, 6, 1⟩])) [5] =
          weightOf (FSA.mk 2 (some 0) [(1, 0)] [⟨0, 1, 5, 1⟩]) [5]) ∧
      ¬ accepts
          (fsa_difference (FSA.mk 2 (some 0) [(1, 0)] [⟨0, 1, 5, 1⟩])
            (FSA.mk 2 (some 0) [(1, 0)] [⟨0, 1, 5, 1⟩])) [5]) :=
  ⟨by decide, by decide,
    fsa_difference_spec (FSA.mk 2 (some 0) [(1, 0)] [⟨0, 1, 5, 1⟩])
      (FSA.mk 2 (some 0) [(1, 0)] [⟨0, 1, 6, 1⟩]) (by decide) (by decide) [5]⟩

theorem stateOf_zero (i K : Nat) : stateOf i K 0 = 0 := rfl

theorem stateOf_pos (i K j : Nat) (hj : j ≠ 0) : stateOf i K j = 1 + i * K + (j - 1) := by
  unfold stateOf
  rw [if_neg hj]

theorem stateOf_pos_ne_zero (i K j : Nat) (hj : j ≠ 0) : stateOf i K j ≠ 0 := by
  rw [stateOf_pos i K j hj]
  omega

theorem stateOf_inj {i i' K j j' : Nat} (hj : j ≤ K) (hj' : j' ≤ K)
    (h : stateOf i K j = stateOf i' K j') : (j = 0 ∧ j' = 0) ∨ (i = i' ∧ j = j') := by
  by_cases h0 : j = 0 <;> by_cases h0' : j' = 0
  · exact Or.inl ⟨h0, h0'⟩
  · rw [stateOf_pos _ _ _ h0'] at h
    rw [h0, stateOf_zero] at h
    omega
  · rw [stateOf_pos _ _ _ h0] at h
    rw [h0', stateOf_zero] at h
    omega
  · rw [stateOf_pos _ _ _ h0, stateOf_pos _ _ _ h0'] at h
    right
    have hj1 : j - 1 < K := by omega
    have hj1' : j' - 1 < K := by omega
    have h1 : i * K + (j - 1) = i' * K + (j' - 1) := by omega
    have h2 : i = i' := by
      have h3 := congrArg (fun x => x / K) h1
      simpa [enc_div hj1, enc_div hj1'] using h3
    subst h2
    exact ⟨rfl, by omega⟩

theorem chainArcs_append (i K : Nat) (xs ys : List (Nat × Rat)) :
    ∀ j0, chainArcs i K j0 (xs ++ ys) =
      chainArcs i K j0 xs ++ chainArcs i K (j0 + xs.length) ys := by
  induction xs with
  | nil => intro j0; simp [chainArcs]
  | cons e xs ih =>
    intro j0
    rw [List.cons_append, chainArcs, chainArcs, ih (j0 + 1), List.cons_append]
    have harith : j0 + 1 + xs.length = j0 + (e :: xs).length := by
      simp
      omega
    rw [harith]

theorem mem_chainArcs_from (i K : Nat) (lw : List (Nat × Rat)) :
    ∀ j0 t, t ∈ chainArcs i K j0 lw →
      ∃ j, j0 ≤ j ∧ j < j0 + lw.length ∧ t.from_state = stateOf i K j := by
  induction lw with
  | nil => intro j0 t h; simp [chainArcs] at h
  | cons e lw ih =>
    intro j0 t h
    rw [chainArcs] at h
    rcases List.mem_cons.mp h with rfl | h2
    · exact ⟨j0, le_refl _, by simp, rfl⟩
    · rcases ih (j0 + 1) t h2 with ⟨j, hj1, hj2, hj3⟩
      refine ⟨j, by omega, ?_, hj3⟩
      simp only [List.length_cons]
      omega

theorem mem_chainArcs_label (i K : Nat) (lw : List (Nat × Rat)) :
    ∀ j0 t, t ∈ chainArcs i K j0 lw → ∃ e ∈ lw, t.label = e.1 := by
  induction lw with
  | nil => intro j0 t h; simp [chainArcs] at h
  | cons e lw ih =>
    intro j0 t h
    rw [chainArcs] at h
    rcases List.mem_cons.mp h with rfl | h2
    · exact ⟨e, by simp, rfl⟩
    · rcases ih (j0 + 1) t h2 with ⟨e2, he2, hl⟩
      exact ⟨e2, by simp [he2], hl⟩

theorem filter_chainArcs_nil (i K : Nat) (lw : List (Nat × Rat)) (j0 X l : Nat)
    (hX : ∀ j, j0 ≤ j → j < j0 + lw.length → stateOf i K j ≠ X) :
    (chainArcs i K j0 lw).filter
      (fun t => t.from_state == X && t.label == l) = [] := by
  rw [List.filter_eq_nil_iff]
  intro t ht
  rcases mem_chainArcs_from i K lw j0 t ht with ⟨j, h1, h2, h3⟩
  simp only [Bool.and_eq_true, beq_iff_eq, not_and]
  intro hfrom
  rw [h3] at hfrom
  exact (hX j h1 h2 hfrom).elim

theorem filter_chainArcs_zero (i K : Nat) (lw : List (Nat × Rat)) (l : Nat) :
    (chainArcs i K 0 lw).filter (fun t => t.from_state == 0 && t.label == l) =
      (match lw with
        | e :: _ =>
          if e.1 = l then
            [{ from_state := 0, to_state := 1 + i * K + 0, label := e.1, weight := e.2 }]
          else []
        | [] => []) := by
  cases lw with
  | nil => rfl
  | cons e lw =>
    show (chainArcs i K 0 (e :: lw)).filter (fun t => t.from_state == 0 && t.label == l) =
      if e.1 = l then
        [{ from_state := 0, to_state := 1 + i * K + 0, label := e.1, weight := e.2 }]
      else []
    rw [chainArcs, List.filter_cons]
    have htail : (chainArcs i K (0 + 1) lw).filter
        (fun t => t.from_state == 0 && t.label == l) = [] :=
      filter_chainArcs_nil i K lw 1 0 l
        (fun j hj1 _ => stateOf_pos_ne_zero i K j (by omega))
    by_cases hl : e.1 = l
    · rw [if_pos (by simp [stateOf_zero, hl]), htail, if_pos hl]
      simp [stateOf_zero]
    · rw [if_neg (by simp [stateOf_zero, hl]), htail, if_neg hl]

theorem filter_chainArcs_at (i K : Nat) (pre suf : List (Nat × Rat)) (l : Nat)
    (hpre : pre ≠ []) (hlen : pre.length + suf.length ≤ K) :
    (chainArcs i K 0 (pre ++ suf)).filter
      (fun t => t.from_state == 1 + i * K + (pre.length - 1) && t.label == l) =
      (match suf with
        | e :: _ =>
          if e.1 = l then
            [{ from_state := 1 + i * K + (pre.length - 1)
             , to_state := 1 + i * K + pre.length, label := e.1, weight := e.2 }]
          else []
        | [] => []) := by
  have hpl : pre.length ≠ 0 := by
    intro h0
    exact hpre (List.length_eq_zero.mp h0)
  have hXeq : stateOf i K pre.length = 1 + i * K + (pre.length - 1) :=
    stateOf_pos i K pre.length hpl
  rw [chainArcs_append, List.filter_append]
  have hprenil : (chainArcs i K 0 pre).filter
      (fun t => t.from_state == 1 + i * K + (pre.length - 1) && t.label == l) = [] := by
    apply filter_chainArcs_nil
    intro j hj1 hj2
    intro hc
    rw [← hXeq] at hc
    rcases stateOf_inj (by omega) (by omega) hc with ⟨_, hz⟩ | ⟨_, hz⟩
    · exact hpl hz
    · omega
  rw [hprenil, List.nil_append]
  cases suf with
  | nil => rfl
  | cons e suf =>
    show (chainArcs i K (0 + pre.length) (e :: suf)).filter
        (fun t => t.from_state == 1 + i * K + (pre.length - 1) && t.label == l) =
      if e.1 = l then
        [{ from_state := 1 + i * K + (pre.length - 1)
         , to_state := 1 + i * K + pre.length, label := e.1, weight := e.2 }]
      else []
    rw [chainArcs, List.filter_cons]
    have hfrom : stateOf i K (0 + pre.length) = 1 + i * K + (pre.length - 1) := by
      rw [Nat.zero_add]
      exact hXeq
    have htail : (chainArcs i K (0 + pre.length + 1) suf).filter
        (fun t => t.from_state == 1 + i * K + (pre.length - 1) && t.label == l) = [] := by
      apply filter_chainArcs_nil
      intro j hj1 hj2
      intro hc
      rw [← hXeq] at hc
      have hjK : j ≤ K := by
        simp only [List.length_cons] at hlen
        omega
      rcases stateOf_inj hjK (by omega) hc with ⟨hz, _⟩ | ⟨_, hz⟩
      · omega
      · omega
    by_cases hl : e.1 = l
    · rw [if_pos (by simp [hXeq, hl]), htail, if_pos hl]
      rw [hfrom]
      simp
    · rw [if_neg (by simp [hXeq, hl]), htail, if_neg hl]

theorem filter_chainArcs_other (i i' K : Nat) (lw : List (Nat × Rat)) (d l : Nat)
    (hne : i' ≠ i) (hd : d < K) (hlen : lw.length ≤ K) :
    (chainArcs i' K 0 lw).filter
      (fun t => t.from_state == 1 + i * K + d && t.label == l) = [] := by
  apply filter_chainArcs_nil
  intro j hj1 hj2 hc
  have hXeq : stateOf i K (d + 1) = 1 + i * K + d := by
    rw [stateOf_pos i K (d + 1) (by omega)]
    omega
  rw [← hXeq] at hc
  rcases stateOf_inj (by omega) (by omega) hc with ⟨_, hz⟩ | ⟨hz, _⟩
  · omega
  · exact hne hz

theorem arcsFromChains_filter_zero (K l : Nat) (cs : List (List (Nat × Rat) × Rat)) :
    ∀ i0, (arcsFromChains K i0 cs).filter
        (fun t => t.from_state == 0 && t.label == l) = firstArcs K l i0 cs := by
  induction cs with
  | nil => intro i0; rfl
  | cons c cs ih =>
    intro i0
    rw [arcsFromChains, List.filter_append, filter_chainArcs_zero, ih (i0 + 1), firstArcs]

theorem arcsFromChains_filter_none (K l : Nat) (cs : List (List (Nat × Rat) × Rat)) :
    ∀ i0 i d, (∀ c ∈ cs, c.1.length ≤ K) → i < i0 → d < K →
      (arcsFromChains K i0 cs).filter
        (fun t => t.from_state == 1 + i * K + d && t.label == l) = [] := by
  induction cs with
  | nil => intro i0 i d _ _ _; rfl
  | cons c cs ih =>
    intro i0 i d hK hi hd
    rw [arcsFromChains, List.filter_append,
      filter_chainArcs_other i i0 K c.1 d l (by omega) hd (hK c (by simp)),
      ih (i0 + 1) i d (fun c2 hc2 => hK c2 (by simp [hc2])) (by omega) hd]
    rfl

theorem arcsFromChains_filter_at (K l : Nat) (cs : List (List (Nat × Rat) × Rat)) :
    ∀ i0 r c, (∀ c2 ∈ cs, c2.1.length ≤ K) → cs[r]? = some c →
      ∀ pre suf, c.1 = pre ++ suf → pre ≠ [] →
        (arcsFromChains K i0 cs).filter
          (fun t => t.from_state == 1 + (i0 + r) * K + (pre.length - 1) &&
            t.label == l) =
          (match suf with
            | e :: _ =>
              if e.1 = l then
                [{ from_state := 1 + (i0 + r) * K + (pre.length - 1)
                 , to_state := 1 + (i0 + r) * K + pre.length
                 , label := e.1, weight := e.2 }]
              else []
            | [] => []) := by
  induction cs with
  | nil =>
    intro i0 r c _ hr
    simp at hr
  | cons c0 cs ih =>
    intro i0 r c hK hr pre suf hsplit hpre
    have hprelen : pre.length ≠ 0 := fun h0 => hpre (List.length_eq_zero.mp h0)
    rw [arcsFromChains, List.filter_append]
    cases r with
    | zero =>
      have hc : c0 = c := by simpa using hr
      subst hc
      have hlen : pre.length + suf.length ≤ K := by
        have h1 := hK c0 (by simp)
        rw [hsplit, List.length_append] at h1
        exact h1
      have hd : pre.length - 1 < K := by omega
      have hz : i0 + 0 = i0 := by omega
      rw [hz, hsplit, filter_chainArcs_at i0 K pre suf l hpre hlen,
        arcsFromChains_filter_none K l cs (i0 + 1) i0 (pre.length - 1)
          (fun c2 hc2 => hK c2 (by simp [hc2])) (by omega) hd]
      cases suf with
      | nil => rfl
      | cons e suf => by_cases hl : e.1 = l <;> simp [hl]
    | succ r2 =>
      have hcmem : c ∈ cs := List.getElem?_mem (by simpa using hr)
      have hlenc : c.1.length ≤ K := hK c (by simp [hcmem])
      have hprele : pre.length ≤ c.1.length := by
        rw [hsplit, List.length_append]
        omega
      have hd : pre.length - 1 < K := by omega
      rw [filter_chainArcs_other (i0 + (r2 + 1)) i0 K c0.1 (pre.length - 1) l
        (by omega) hd (hK c0 (by simp)), List.nil_append]
      have harith : i0 + (r2 + 1) = (i0 + 1) + r2 := by omega
      rw [harith]
      exact ih (i0 + 1) r2 c (fun c2 hc2 => hK c2 (by simp [hc2]))
        (by simpa using hr) pre suf hsplit hpre

theorem find?_finalsFrom_none (K : Nat) (cs : List (List (Nat × Rat) × Rat)) :
    ∀ i0 i d, (∀ c ∈ cs, c.1.length ≤ K) → i < i0 → d < K →
      (finalsFrom K i0 cs).find? (fun p => p.1 == 1 + i * K + d) = none := by
  induction cs with
  | nil => intro _ _ _ _ _ _; rfl
  | cons c cs ih =>
    intro i0 i d hK hi hd
    rw [finalsFrom, List.find?_cons_of_neg, ih (i0 + 1) i d
      (fun c2 hc2 => hK c2 (by simp [hc2])) (by omega) hd]
    show ¬ ((if c.1.isEmpty then 0 else 1 + i0 * K + (c.1.length - 1)) ==
      1 + i * K + d) = true
    by_cases hemp : c.1.isEmpty
    · rw [if_pos hemp]
      simp
      omega
    · rw [if_neg hemp]
      simp only [beq_iff_eq]
      intro hc
      have hlen := hK c (by simp)
      have hne : c.1.length ≠ 0 := by
        intro h0
        exact hemp (by simp [List.isEmpty_iff, List.length_eq_zero.mp h0])
      have h1 : i0 * K + (c.1.length - 1) = i * K + d := by omega
      have h2 := congrArg (fun x => x / K) h1
      simp only at h2
      rw [enc_div (show c.1.length - 1 < K by omega), enc_div hd] at h2
      omega

theorem find?_finalsFrom_at (K : Nat) (cs : List (List (Nat × Rat) × Rat)) :
    ∀ i0 r c, (∀ c2 ∈ cs, c2.1.length ≤ K) → cs[r]? = some c → ∀ d, d < K →
      (finalsFrom K i0 cs).find? (fun p => p.1 == 1 + (i0 + r) * K + d) =
        if c.1.length = d + 1 then some (1 + (i0 + r) * K + d, c.2) else none := by
  induction cs with
  | nil =>
    intro i0 r c _ hr
    simp at hr
  | cons c0 cs ih =>
    intro i0 r c hK hr d hd
    cases r with
    | zero =>
      have hc : c0 = c := by simpa using hr
      subst hc
      have hz : i0 + 0 = i0 := by omega
      rw [hz, finalsFrom]
      by_cases hemp : c0.1.isEmpty
      · have hlen0 : c0.1.length = 0 := by
          rw [List.length_eq_zero]
          exact List.isEmpty_iff.mp hemp
        rw [List.find?_cons_of_neg _ (by rw [if_pos hemp]; simp; omega),
          find?_finalsFrom_none K cs (i0 + 1) i0 d
            (fun c2 hc2 => hK c2 (by simp [hc2])) (by omega) hd,
          if_neg (by omega)]
      · have hne : c0.1.length ≠ 0 := by
          intro h0
          exact hemp (by simp [List.isEmpty_iff, List.length_eq_zero.mp h0])
        by_cases hdl : c0.1.length = d + 1
        · rw [List.find?_cons_of_pos _ (by rw [if_neg hemp]; simp; omega),
            if_pos hdl]
          rw [if_neg hemp]
          have : c0.1.length - 1 = d := by omega
          rw [this]
        · rw [List.find?_cons_of_neg _ (by rw [if_neg hemp]; simp; omega),
            find?_finalsFrom_none K cs (i0 + 1) i0 d
              (fun c2 hc2 => hK c2 (by simp [hc2])) (by omega) hd,
            if_neg hdl]
    | succ r2 =>
      have hkeyne : ¬ ((if c0.1.isEmpty then 0
          else 1 + i0 * K + (c0.1.length - 1)) ==
            1 + (i0 + (r2 + 1)) * K + d) = true := by
        by_cases hemp : c0.1.isEmpty
        · rw [if_pos hemp]
          simp
          omega
        · rw [if_neg hemp]
          simp only [beq_iff_eq]
          intro hc
          have hlen := hK c0 (by simp)
          have hne : c0.1.length ≠ 0 := by
            intro h0
            exact hemp (by simp [List.isEmpty_iff, List.length_eq_zero.mp h0])
          have h1 : i0 * K + (c0.1.length - 1) = (i0 + (r2 + 1)) * K + d := by omega
          have h2 := congrArg (fun x => x / K) h1
          simp only at h2
          rw [enc_div (show c0.1.length - 1 < K by omega), enc_div hd] at h2
          omega
      rw [finalsFrom, List.find?_cons_of_neg]
      · have harith : i0 + (r2 + 1) = (i0 + 1) + r2 := by omega
        rw [harith]
        exact ih (i0 + 1) r2 c (fun c2 hc2 => hK c2 (by simp [hc2]))
          (by simpa using hr) d hd
      · exact hkeyne

theorem find?_finalsFrom_zero (K : Nat) (cs : List (List (Nat × Rat) × Rat)) :
    ∀ i0, (finalsFrom K i0 cs).find? (fun p => p.1 == 0) =
      (cs.find? (fun c => c.1.isEmpty)).map (fun c => (0, c.2)) := by
  induction cs with
  | nil => intro i0; rfl
  | cons c cs ih =>
    intro i0
    rw [finalsFrom]
    by_cases hemp : c.1.isEmpty
    · rw [List.find?_cons_of_pos _ (by rw [if_pos hemp]; simp),
        show (List.find? (fun c => c.1.isEmpty) (c :: cs)) = some c from
          List.find?_cons_of_pos _ hemp]
      rw [if_pos hemp]
      rfl
    · rw [List.find?_cons_of_neg _ (by rw [if_neg hemp]; simp),
        show (List.find? (fun c => c.1.isEmpty) (c :: cs)) =
            List.find? (fun c => c.1.isEmpty) cs from
          List.find?_cons_of_neg _ hemp, ih (i0 + 1)]

theorem accW_glue_interior (K : Nat) (cs : List (List (Nat × Rat) × Rat))
    (hK : ∀ c2 ∈ cs, c2.1.length ≤ K) (r : Nat) (c : List (Nat × Rat) × Rat)
    (hr : cs[r]? = some c) (s : List Nat) :
    ∀ pre suf, c.1 = pre ++ suf → pre ≠ [] →
      accWeights (glueChains K cs) (1 + r * K + (pre.length - 1)) s =
        (if s = suf.map (fun e => e.1) then [(suf.map (fun e => e.2)).sum + c.2]
          else []) := by
  have hcmem : c ∈ cs := List.getElem?_mem hr
  have hlenc := hK c hcmem
  induction s with
  | nil =>
    intro pre suf hsplit hpre
    have hprelen : pre.length ≠ 0 := fun h0 => hpre (List.length_eq_zero.mp h0)
    have hd : pre.length - 1 < K := by
      have hple : pre.length ≤ c.1.length := by
        rw [hsplit, List.length_append]
        omega
      omega
    show (match finalWeight (glueChains K cs) (1 + r * K + (pre.length - 1)) with
      | some w => [w]
      | none => []) = _
    have hfw : finalWeight (glueChains K cs) (1 + r * K + (pre.length - 1)) =
        if c.1.length = (pre.length - 1) + 1 then some c.2 else none := by
      show ((finalsFrom K 0 cs).find?
        (fun p => p.1 == 1 + r * K + (pre.length - 1))).map (fun p => p.2) = _
      have h0 := find?_finalsFrom_at K cs 0 r c hK hr (pre.length - 1) hd
      rw [Nat.zero_add] at h0
      rw [h0]
      by_cases hdl : c.1.length = (pre.length - 1) + 1
      · rw [if_pos hdl, if_pos hdl]
        rfl
      · rw [if_neg hdl, if_neg hdl]
        rfl
    rw [hfw]
    have hiff : (c.1.length = (pre.length - 1) + 1) ↔ suf = [] := by
      rw [hsplit, List.length_append]
      constructor
      · intro h
        have h2 : suf.length = 0 := by omega
        exact List.length_eq_zero.mp h2
      · intro h
        subst h
        simp
        omega
    by_cases hsuf : suf = []
    · subst hsuf
      rw [if_pos (hiff.mpr rfl), if_pos (by simp)]
      simp
    · rw [if_neg (fun hcon => hsuf (hiff.mp hcon)),
        if_neg (fun hcon => hsuf (by
          cases suf with
          | nil => rfl
          | cons e s3 => simp at hcon))]
  | cons l s2 ih =>
    intro pre suf hsplit hpre
    show (arcsFrom (glueChains K cs) (1 + r * K + (pre.length - 1)) l).flatMap
      (fun v => (accWeights (glueChains K cs) v.to_state s2).map
        (fun w => v.weight + w)) = _
    have harc := arcsFromChains_filter_at K l cs 0 r c hK hr pre suf hsplit hpre
    rw [Nat.zero_add] at harc
    have harc2 : arcsFrom (glueChains K cs) (1 + r * K + (pre.length - 1)) l =
        chainStepArcs (1 + r * K + (pre.length - 1)) (1 + r * K + pre.length) l suf :=
      harc
    rw [harc2]
    cases suf with
    | nil => simp [chainStepArcs]
    | cons e suf2 =>
      by_cases hl : e.1 = l
      · rw [show chainStepArcs (1 + r * K + (pre.length - 1)) (1 + r * K + pre.length)
              l (e :: suf2) =
            [{ from_state := 1 + r * K + (pre.length - 1)
             , to_state := 1 + r * K + pre.length
             , label := e.1, weight := e.2 }] from by
          simp [chainStepArcs, hl]]
        rw [List.flatMap_cons, List.flatMap_nil, List.append_nil]
        show (accWeights (glueChains K cs) (1 + r * K + pre.length) s2).map
            (fun w => e.2 + w) = _
        have hsplit2 : c.1 = (pre ++ [e]) ++ suf2 := by
          rw [hsplit, List.append_assoc, List.singleton_append]
        have hih := ih (pre ++ [e]) suf2 hsplit2 (by simp)
        have hplen : (pre ++ [e]).length - 1 = pre.length := by simp
        rw [hplen] at hih
        rw [hih]
        by_cases hs2 : s2 = suf2.map (fun e => e.1)
        · rw [if_pos hs2, if_pos (by rw [List.map_cons, hl, hs2])]
          simp [add_assoc]
        · rw [if_neg hs2, if_neg (fun hcon => by
            rw [List.map_cons] at hcon
            exact hs2 (List.tail_eq_of_cons_eq hcon))]
          rfl
      · rw [show chainStepArcs (1 + r * K + (pre.length - 1)) (1 + r * K + pre.length)
              l (e :: suf2) = [] from by
          simp [chainStepArcs, hl]]
        rw [if_neg (fun hcon => by
          rw [List.map_cons] at hcon
          exact hl (List.head_eq_of_cons_eq hcon).symm)]
        rfl

theorem combine_some_of_le (x : Rat) (l : List (Option Rat))
    (h : ∀ o ∈ l, ∀ v, o = some v → x ≤ v) :
    combine (some x) (combineAll l) = some x := by
  induction l with
  | nil => rfl
  | cons o l ih =>
    rw [combineAll_cons, ← combine_assoc]
    have h1 : combine (some x) o = some x := by
      cases ho : o with
      | none => rfl
      | some v =>
        show some (min x v) = some x
        rw [min_eq_left (h o (by simp) v ho)]
    rw [h1, ih (fun o2 ho2 v hv => h o2 (by simp [ho2]) v hv)]

theorem flatMap_firstArcs (K : Nat) (CS : List (List (Nat × Rat) × Rat))
    (hKC : ∀ c2 ∈ CS, c2.1.length ≤ K) (l : Nat) (s2 : List Nat) :
    ∀ (cs : List (List (Nat × Rat) × Rat)) (i0 : Nat),
      (∀ r c, cs[r]? = some c → CS[i0 + r]? = some c) →
      (firstArcs K l i0 cs).flatMap (fun t =>
        (accWeights (glueChains K CS) t.to_state s2).map (fun w => t.weight + w)) =
      cs.flatMap (fun c =>
        match chainWeightOf c (l :: s2) with
        | some v => [v]
        | none => []) := by
  intro cs
  induction cs with
  | nil => intro i0 _; rfl
  | cons c cs ih =>
    intro i0 hsub
    obtain ⟨lw, f⟩ := c
    have hsub2 : ∀ r c2, cs[r]? = some c2 → CS[(i0 + 1) + r]? = some c2 := by
      intro r c2 h
      have h2 := hsub (r + 1) c2 (by simpa using h)
      rwa [show i0 + (r + 1) = (i0 + 1) + r from by omega] at h2
    rw [firstArcs, List.flatMap_append, ih (i0 + 1) hsub2, List.flatMap_cons]
    have hCSi : CS[i0]? = some (lw, f) := by
      have h2 := hsub 0 (lw, f) (by simp)
      rwa [Nat.add_zero] at h2
    congr 1
    cases lw with
    | nil =>
      show ([] : List Arc).flatMap _ = _
      rw [List.flatMap_nil]
      have : chainWeightOf ([], f) (l :: s2) = none := by
        unfold chainWeightOf chainLabels
        rw [if_neg (by simp)]
      rw [this]
    | cons e lw2 =>
      by_cases hl : e.1 = l
      · rw [show (match (e :: lw2, f).1 with
            | e :: _ =>
              if e.1 = l then
                [{ from_state := 0, to_state := 1 + i0 * K + 0
                 , label := e.1, weight := e.2 }]
              else []
            | [] => ([] : List Arc)) =
            [{ from_state := 0, to_state := 1 + i0 * K + 0
             , label := e.1, weight := e.2 }] from by simp [hl]]
        rw [List.flatMap_cons, List.flatMap_nil, List.append_nil]
        show (accWeights (glueChains K CS) (1 + i0 * K + 0) s2).map
          (fun w => e.2 + w) = _
        have hih : accWeights (glueChains K CS) (1 + i0 * K + 0) s2 =
            (if s2 = lw2.map (fun e => e.1)
              then [(lw2.map (fun e => e.2)).sum + f] else []) := by
          have h2 := accW_glue_interior K CS hKC i0 (e :: lw2, f) hCSi s2
            [e] lw2 rfl (by simp)
          simpa using h2
        rw [hih]
        by_cases hs2 : s2 = lw2.map (fun e => e.1)
        · rw [if_pos hs2]
          have hcw : chainWeightOf (e :: lw2, f) (l :: s2) =
              some (e.2 + ((lw2.map (fun e => e.2)).sum + f)) := by
            unfold chainWeightOf chainLabels chainTotal
            rw [if_pos (by rw [List.map_cons, hl, hs2])]
            rw [List.map_cons, List.sum_cons, add_assoc]
          rw [hcw]
          rfl
        · have hcw : chainWeightOf (e :: lw2, f) (l :: s2) = none := by
            unfold chainWeightOf
            rw [if_neg (fun hcon => by
              unfold chainLabels at hcon
              rw [List.map_cons] at hcon
              exact hs2 (List.tail_eq_of_cons_eq hcon))]
          rw [if_neg hs2, hcw]
          rfl
      · rw [show (match (e :: lw2, f).1 with
            | e :: _ =>
              if e.1 = l then
                [{ from_state := 0, to_state := 1 + i0 * K + 0
                 , label := e.1, weight := e.2 }]
              else []
            | [] => ([] : List Arc)) = [] from by simp [hl]]
        have hcw : chainWeightOf (e :: lw2, f) (l :: s2) = none := by
          unfold chainWeightOf
          rw [if_neg (fun hcon => by
            unfold chainLabels at hcon
            rw [List.map_cons] at hcon
            exact hl (List.head_eq_of_cons_eq hcon).symm)]
        rw [hcw, List.flatMap_nil]

theorem weightOf_glue (K : Nat) (CS : List (List (Nat × Rat) × Rat))
    (hKC : ∀ c2 ∈ CS, c2.1.length ≤ K)
    (hsort : List.Pairwise (fun c d => chainTotal c ≤ chainTotal d) CS)
    (s : List Nat) :
    weightOf (glueChains K CS) s = combineAll (CS.map (fun c => chainWeightOf c s)) := by
  show listMin (accWeights (glueChains K CS) 0 s) = _
  cases s with
  | nil =>
    show listMin (match finalWeight (glueChains K CS) 0 with
      | some w => [w]
      | none => []) = _
    have hfw : finalWeight (glueChains K CS) 0 =
        (CS.find? (fun c => c.1.isEmpty)).map (fun c => c.2) := by
      show ((finalsFrom K 0 CS).find? (fun p => p.1 == 0)).map (fun p => p.2) = _
      rw [find?_finalsFrom_zero K CS 0]
      cases CS.find? (fun c => c.1.isEmpty) <;> rfl
    rw [hfw]
    clear hKC hfw
    induction CS with
    | nil => rfl
    | cons c CS ih =>
      by_cases hemp : c.1.isEmpty
      · rw [show (List.find? (fun c => c.1.isEmpty) (c :: CS)) = some c from
          List.find?_cons_of_pos _ hemp]
        have hc1 : c.1 = [] := List.isEmpty_iff.mp hemp
        have hcw : chainWeightOf c [] = some (chainTotal c) := by
          unfold chainWeightOf chainLabels
          rw [if_pos (by rw [hc1]; rfl)]
        rw [List.map_cons, combineAll_cons, hcw]
        have hct : chainTotal c = c.2 := by
          unfold chainTotal
          rw [hc1]
          simp
        rw [combine_some_of_le (chainTotal c) _ (fun o ho v hv => by
          rcases List.mem_map.mp ho with ⟨d, hd, hod⟩
          have hle := List.rel_of_sorted_cons hsort d hd
          by_cases hde : ([] : List Nat) = chainLabels d
          · rw [← hod] at hv
            unfold chainWeightOf at hv
            rw [if_pos hde] at hv
            have hv2 : chainTotal d = v := by
              injection hv
            rw [← hv2]
            exact hle
          · rw [← hod] at hv
            unfold chainWeightOf at hv
            rw [if_neg hde] at hv
            exact absurd hv (by simp))]
        rw [hct]
        rfl
      · rw [show (List.find? (fun c => c.1.isEmpty) (c :: CS)) =
            List.find? (fun c => c.1.isEmpty) CS from
          List.find?_cons_of_neg _ hemp]
        have hcw : chainWeightOf c [] = none := by
          unfold chainWeightOf
          rw [if_neg (fun hcon => hemp (by
            unfold chainLabels at hcon
            rw [List.isEmpty_iff]
            exact List.map_eq_nil_iff.mp hcon.symm))]
        rw [List.map_cons, combineAll_cons, hcw, ih (List.pairwise_cons.mp hsort).2]
        rfl
  | cons l s2 =>
    show listMin ((arcsFrom (glueChains K CS) 0 l).flatMap
      (fun v => (accWeights (glueChains K CS) v.to_state s2).map
        (fun w => v.weight + w))) = _
    have harcs : arcsFrom (glueChains K CS) 0 l = firstArcs K l 0 CS :=
      arcsFromChains_filter_zero K l CS 0
    rw [harcs, flatMap_firstArcs K CS hKC l s2 CS 0 (fun r c h => by simpa using h),
      listMin_flatMap]
    apply congrArg
    apply List.map_congr_left
    intro c _
    cases hcw : chainWeightOf c (l :: s2) <;> rfl

theorem endState_cons (q : Nat) (t : Arc) (p : List Arc) :
    endState q (t :: p) = endState t.to_state p := rfl

theorem endState_append (q : Nat) (xs ys : List Arc) :
    endState q (xs ++ ys) = endState (endState q xs) ys := by
  unfold endState
  rw [List.foldl_append]

theorem isPath_append (a : FSA) (xs ys : List Arc) :
    ∀ q, isPath a q (xs ++ ys) = (isPath a q xs && isPath a (endState q xs) ys) := by
  induction xs with
  | nil =>
    intro q
    show isPath a q ys = (true && isPath a (endState q []) ys)
    rw [Bool.true_and]
    rfl
  | cons t xs ih =>
    intro q
    show (decide (t ∈ a.arcs) && (t.from_state == q) && isPath a t.to_state (xs ++ ys)) = _
    rw [ih t.to_state]
    rw [show isPath a q (t :: xs) =
      (decide (t ∈ a.arcs) && (t.from_state == q) && isPath a t.to_state xs) from rfl]
    rw [endState_cons]
    simp [Bool.and_assoc]

theorem isPath_arcs_mem (a : FSA) (p : List Arc) :
    ∀ q, isPath a q p = true → ∀ t ∈ p, t ∈ a.arcs := by
  induction p with
  | nil => intro q _ t ht; simp at ht
  | cons u p ih =>
    intro q hpath t ht
    simp only [isPath, Bool.and_eq_true, decide_eq_true_eq, beq_iff_eq] at hpath
    rcases List.mem_cons.mp ht with rfl | ht2
    · exact hpath.1.1
    · exact ih u.to_state hpath.2 t ht2

theorem pathWeight_cons (t : Arc) (p : List Arc) :
    pathWeight (t :: p) = t.weight + pathWeight p := by
  unfold pathWeight
  rw [List.map_cons, List.sum_cons]

theorem pathWeight_append (xs ys : List Arc) :
    pathWeight (xs ++ ys) = pathWeight xs + pathWeight ys := by
  unfold pathWeight
  rw [List.map_append, List.sum_append]

theorem pathWeight_nonneg (a : FSA) (ha : Valid a) (p : List Arc)
    (hmem : ∀ t ∈ p, t ∈ a.arcs) : 0 ≤ pathWeight p := by
  induction p with
  | nil => exact le_refl 0
  | cons t p ih =>
    rw [pathWeight_cons]
    exact add_nonneg (ha.2.1 t (hmem t (by simp))).2.2
      (ih (fun u hu => hmem u (by simp [hu])))

theorem endState_lt (a : FSA) (ha : Valid a) (p : List Arc) :
    ∀ q, q < a.numStates → isPath a q p = true → endState q p < a.numStates := by
  induction p with
  | nil => intro q hq _; exact hq
  | cons t p ih =>
    intro q hq hpath
    simp only [isPath, Bool.and_eq_true, decide_eq_true_eq, beq_iff_eq] at hpath
    rw [endState_cons]
    exact ih t.to_state (ha.2.1 t hpath.1.1).2.1 hpath.2

theorem pathsLe_complete (a : FSA) (p : List Arc) :
    ∀ q k, isPath a q p = true → p.length ≤ k → p ∈ pathsLe a q k := by
  induction p with
  | nil =>
    intro q k _ _
    cases k with
    | zero => show [] ∈ [[]]; simp
    | succ k2 => rw [pathsLe]; simp
  | cons t p ih =>
    intro q k hpath hlen
    cases k with
    | zero => simp at hlen
    | succ k2 =>
      rw [pathsLe]
      apply List.mem_cons_of_mem
      apply List.mem_flatMap.mpr
      simp only [isPath, Bool.and_eq_true, decide_eq_true_eq, beq_iff_eq] at hpath
      refine ⟨t, ?_, List.mem_map.mpr
        ⟨p, ih t.to_state k2 hpath.2 (by simpa using hlen), rfl⟩⟩
      rw [List.mem_filter]
      exact ⟨hpath.1.1, by simp [hpath.1.2]⟩

theorem pathsLe_length (a : FSA) : ∀ k q p, p ∈ pathsLe a q k → p.length ≤ k := by
  intro k
  induction k with
  | zero =>
    intro q p hp
    have : p = [] := by simpa [pathsLe] using hp
    simp [this]
  | succ k2 ih =>
    intro q p hp
    rw [pathsLe] at hp
    rcases List.mem_cons.mp hp with rfl | hp2
    · simp
    · rcases List.mem_flatMap.mp hp2 with ⟨t, _, hmap⟩
      rcases List.mem_map.mp hmap with ⟨p2, hp2m, rfl⟩
      have := ih t.to_state p2 hp2m
      simp only [List.length_cons]
      omega

theorem deEps_length (p : List Arc) : ∀ c, ((deEps c p).1).length ≤ p.length := by
  induction p with
  | nil => intro c; exact le_refl 0
  | cons t p ih =>
    intro c
    rw [deEps]
    by_cases h0 : t.label = 0
    · rw [if_pos h0]
      have := ih (c + t.weight)
      simp only [List.length_cons]
      omega
    · rw [if_neg h0]
      have := ih 0
      simp only [List.length_cons]
      omega

theorem deEps_sum (p : List Arc) :
    ∀ c, (((deEps c p).1).map (fun e => e.2)).sum + (deEps c p).2 = c + pathWeight p := by
  induction p with
  | nil =>
    intro c
    show (0 : Rat) + c = c + pathWeight []
    show (0 : Rat) + c = c + 0
    rw [zero_add, add_zero]
  | cons t p ih =>
    intro c
    rw [deEps, pathWeight_cons]
    by_cases h0 : t.label = 0
    · rw [if_pos h0]
      rw [ih (c + t.weight)]
      ring
    · rw [if_neg h0]
      show ((t.label, c + t.weight).2 ::
        ((deEps 0 p).1.map (fun e => e.2))).sum + (deEps 0 p).2 =
        c + (t.weight + pathWeight p)
      rw [List.sum_cons]
      show c + t.weight + ((deEps 0 p).1.map (fun e => e.2)).sum + (deEps 0 p).2 =
        c + (t.weight + pathWeight p)
      linarith [ih 0]

theorem deEps_labels_ne (p : List Arc) : ∀ c e, e ∈ (deEps c p).1 → e.1 ≠ 0 := by
  induction p with
  | nil => intro c e he; simp [deEps] at he
  | cons t p ih =>
    intro c e he
    rw [deEps] at he
    by_cases h0 : t.label = 0
    · rw [if_pos h0] at he
      exact ih (c + t.weight) e he
    · rw [if_neg h0] at he
      rcases List.mem_cons.mp he with rfl | he2
      · exact h0
      · exact ih 0 e he2

theorem deEps_labels_eq (p : List Arc) :
    (∀ t ∈ p, t.label ≠ 0) → ∀ c,
      ((deEps c p).1).map (fun e => e.1) = p.map (fun t => t.label) := by
  induction p with
  | nil => intro _ c; rfl
  | cons t p ih =>
    intro hne c
    rw [deEps, if_neg (hne t (by simp)), List.map_cons, List.map_cons,
      ih (fun u hu => hne u (by simp [hu])) 0]

theorem combine_isSome :
    ∀ x y : Option Rat, (combine x y).isSome = (x.isSome || y.isSome)
  | none, none => rfl
  | none, some _ => rfl
  | some _, none => rfl
  | some _, some _ => rfl

theorem combineAll_isSome (l : List (Option Rat)) :
    (combineAll l).isSome = true ↔ ∃ o ∈ l, o.isSome = true := by
  induction l with
  | nil => simp [combineAll]
  | cons o l ih =>
    rw [combineAll_cons, combine_isSome]
    simp only [Bool.or_eq_true, ih]
    constructor
    · rintro (h | ⟨o2, ho2, h⟩)
      · exact ⟨o, by simp, h⟩
      · exact ⟨o2, by simp [ho2], h⟩
    · rintro ⟨o2, ho2, h⟩
      rcases List.mem_cons.mp ho2 with rfl | h2
      · exact Or.inl h
      · exact Or.inr ⟨o2, h2, h⟩

theorem accW_of_path (a : FSA) (p : List Arc) :
    ∀ q, isPath a q p = true → (finalWeight a (endState q p)).isSome = true →
      accWeights a q (p.map (fun t => t.label)) ≠ [] := by
  induction p with
  | nil =>
    intro q _ hf
    show (match finalWeight a q with
      | some w => [w]
      | none => []) ≠ []
    cases hfw : finalWeight a q with
    | none =>
      rw [show endState q [] = q from rfl, hfw] at hf
      simp at hf
    | some w => simp
  | cons t p ih =>
    intro q hpath hf
    simp only [isPath, Bool.and_eq_true, decide_eq_true_eq, beq_iff_eq] at hpath
    obtain ⟨⟨hmem, hfrom⟩, hrest⟩ := hpath
    rw [endState_cons] at hf
    have hne := ih t.to_state hrest hf
    show (arcsFrom a q t.label).flatMap
      (fun v => (accWeights a v.to_state (p.map (fun t => t.label))).map
        (fun w => v.weight + w)) ≠ []
    intro h0
    rw [List.flatMap_eq_nil_iff] at h0
    have htmem : t ∈ arcsFrom a q t.label := by
      rw [arcsFrom, List.mem_filter]
      exact ⟨hmem, by simp [hfrom]⟩
    have h1 := h0 t htmem
    rw [List.map_eq_nil_iff] at h1
    exact hne h1

theorem isPath_take (a : FSA) (q : Nat) (p : List Arc) (i : Nat)
    (hp : isPath a q p = true) : isPath a q (p.take i) = true := by
  have h2 : isPath a q (p.take i ++ p.drop i) = true := by
    rw [List.take_append_drop]
    exact hp
  rw [isPath_append, Bool.and_eq_true] at h2
  exact h2.1

theorem isPath_drop (a : FSA) (q : Nat) (p : List Arc) (i : Nat)
    (hp : isPath a q p = true) :
    isPath a (endState q (p.take i)) (p.drop i) = true := by
  have h2 : isPath a q (p.take i ++ p.drop i) = true := by
    rw [List.take_append_drop]
    exact hp
  rw [isPath_append, Bool.and_eq_true] at h2
  exact h2.2

theorem acc_path_shorten (a : FSA) (ha : Valid a) (q : Nat) (hq : q < a.numStates) :
    ∀ p, isPath a q p = true → ∃ p2, p2.length ≤ a.numStates ∧
      isPath a q p2 = true ∧ endState q p2 = endState q p ∧
      pathWeight p2 ≤ pathWeight p := by
  suffices H : ∀ (L : Nat) (p : List Arc), p.length ≤ L → isPath a q p = true →
      ∃ p2, p2.length ≤ a.numStates ∧ isPath a q p2 = true ∧
        endState q p2 = endState q p ∧ pathWeight p2 ≤ pathWeight p by
    exact fun p hp => H p.length p (le_refl _) hp
  intro L
  induction L with
  | zero =>
    intro p hlen hp
    exact ⟨p, by omega, hp, rfl, le_refl _⟩
  | succ L ih =>
    intro p hlen hp
    by_cases hle : p.length ≤ a.numStates
    · exact ⟨p, hle, hp, rfl, le_refl _⟩
    · have hmap : ∀ i ∈ Finset.range (p.length + 1),
          endState q (p.take i) ∈ Finset.range a.numStates := by
        intro i _
        rw [Finset.mem_range]
        exact endState_lt a ha (p.take i) q hq (isPath_take a q p i hp)
      have hcard : (Finset.range a.numStates).card <
          (Finset.range (p.length + 1)).card := by
        rw [Finset.card_range, Finset.card_range]
        omega
      obtain ⟨i, hi, j, hj, hij, heq⟩ :=
        Finset.exists_ne_map_eq_of_card_lt_of_maps_to hcard hmap
      rw [Finset.mem_range] at hi hj
      obtain ⟨i0, j0, hilt, hjle, heq0⟩ : ∃ i0 j0, i0 < j0 ∧ j0 ≤ p.length ∧
          endState q (p.take i0) = endState q (p.take j0) := by
        rcases Nat.lt_or_ge i j with h | h
        · exact ⟨i, j, h, by omega, heq⟩
        · exact ⟨j, i, by omega, by omega, heq.symm⟩
      have hseg : p.take j0 = p.take i0 ++ (p.take j0).drop i0 := by
        conv_lhs => rw [← List.take_append_drop i0 (p.take j0)]
        rw [List.take_take, min_eq_left (le_of_lt hilt)]
      have htj := isPath_take a q p j0 hp
      have htj2 : isPath a q (p.take i0 ++ (p.take j0).drop i0) = true := by
        rw [← hseg]
        exact htj
      rw [isPath_append, Bool.and_eq_true] at htj2
      have htj3 := htj2
      have hend_j0 : endState q (p.take j0) =
          endState (endState q (p.take i0)) ((p.take j0).drop i0) := by
        conv_lhs => rw [hseg]
        rw [endState_append]
      have hdrop := isPath_drop a q p j0 hp
      rw [← heq0] at hdrop
      have hp2path : isPath a q (p.take i0 ++ p.drop j0) = true := by
        rw [isPath_append, Bool.and_eq_true]
        exact ⟨htj3.1, hdrop⟩
      have hp2end : endState q (p.take i0 ++ p.drop j0) = endState q p := by
        rw [endState_append, heq0]
        conv_rhs => rw [← List.take_append_drop j0 p]
        rw [endState_append]
      have hsegmem : ∀ t ∈ (p.take j0).drop i0, t ∈ a.arcs := by
        intro t ht
        have h1 : t ∈ p.take j0 := List.Sublist.mem ht (List.drop_sublist _ _)
        have h2 : t ∈ p := List.Sublist.mem h1 (List.take_sublist _ _)
        exact isPath_arcs_mem a p q hp t h2
      have hsegw : 0 ≤ pathWeight ((p.take j0).drop i0) :=
        pathWeight_nonneg a ha _ hsegmem
      have hpw : pathWeight (p.take i0 ++ p.drop j0) ≤ pathWeight p := by
        have hfull : pathWeight p = pathWeight (p.take j0) + pathWeight (p.drop j0) := by
          conv_lhs => rw [← List.take_append_drop j0 p]
          rw [pathWeight_append]
        have hseg2 : pathWeight (p.take j0) =
            pathWeight (p.take i0) + pathWeight ((p.take j0).drop i0) := by
          conv_lhs => rw [hseg]
          rw [pathWeight_append]
        rw [pathWeight_append, hfull, hseg2]
        linarith
      have hp2len : (p.take i0 ++ p.drop j0).length ≤ L := by
        rw [List.length_append, List.length_take, List.length_drop]
        have : i0 ⊓ p.length = i0 := min_eq_left (by omega)
        omega
      obtain ⟨p3, h3len, h3path, h3end, h3pw⟩ :=
        ih (p.take i0 ++ p.drop j0) hp2len hp2path
      exact ⟨p3, h3len, h3path, by rw [h3end, hp2end], le_trans h3pw hpw⟩

theorem chainTotal_mkChain (a : FSA) (p : List Arc) :
    chainTotal (mkChain a p) = totalW a p := by
  unfold chainTotal mkChain totalW
  show ((deEps 0 p).1.map (fun e => e.2)).sum +
    ((deEps 0 p).2 + (finalWeight a (endState (startState a) p)).getD 0) = _
  linarith [deEps_sum p 0]

theorem mem_selected_acc (a : FSA) (n : Int) (p : List Arc) (hp : p ∈ selected a n) :
    p ∈ accPathsList a n := by
  have hp2 : p ∈ sortedAccPaths a n := List.mem_of_mem_take hp
  exact (List.perm_insertionSort (pathLe a) (accPathsList a n)).mem_iff.mp hp2

theorem pathLe_totalW (a : FSA) (p q : List Arc) (h : pathLe a p q) :
    totalW a p ≤ totalW a q := by
  rcases h with h | ⟨h, -⟩
  · exact le_of_lt h
  · exact le_of_eq h

theorem nBest_hK (a : FSA) (n : Int) :
    ∀ c ∈ nBestChains a n, c.1.length ≤ searchFuel a n + 1 := by
  intro c hc
  rcases List.mem_map.mp hc with ⟨p, hp, rfl⟩
  have h1 : ((deEps 0 p).1).length ≤ p.length := deEps_length p 0
  have hp4 : p ∈ pathsLe a (startState a) (searchFuel a n) :=
    (List.mem_filter.mp (mem_selected_acc a n p hp)).1
  have h2 := pathsLe_length a (searchFuel a n) (startState a) p hp4
  show ((deEps 0 p).1).length ≤ searchFuel a n + 1
  omega

theorem nBest_sorted (a : FSA) (n : Int) :
    List.Pairwise (fun c d => chainTotal c ≤ chainTotal d) (nBestChains a n) := by
  unfold nBestChains
  apply List.Pairwise.map
  · intro p q h
    rw [chainTotal_mkChain, chainTotal_mkChain]
    exact pathLe_totalW a p q h
  · exact List.Pairwise.sublist (List.take_sublist _ _)
      (List.sorted_insertionSort (pathLe a) (accPathsList a n))

theorem weightOf_n_best (a : FSA) (n : Int) (s : List Nat) :
    weightOf (fsa_n_best a n) s =
      combineAll ((nBestChains a n).map (fun c => chainWeightOf c s)) :=
  weightOf_glue (searchFuel a n + 1) (nBestChains a n) (nBest_hK a n) (nBest_sorted a n) s

theorem accepts_n_best_mem (a : FSA) (n : Int) (s : List Nat)
    (hacc : accepts (fsa_n_best a n) s) : s ∈ nBestStrings a n := by
  unfold accepts at hacc
  rw [weightOf_n_best, combineAll_isSome] at hacc
  rcases hacc with ⟨o, ho, hos⟩
  rcases List.mem_map.mp ho with ⟨c, hc, rfl⟩
  have hlab : s = chainLabels c := by
    by_contra hne
    unfold chainWeightOf at hos
    rw [if_neg hne] at hos
    simp at hos
  rw [hlab]
  exact List.mem_map.mpr ⟨c, hc, rfl⟩

theorem mem_arcsFromChains (K : Nat) (cs : List (List (Nat × Rat) × Rat)) :
    ∀ i0 t, t ∈ arcsFromChains K i0 cs → ∃ c ∈ cs, ∃ e ∈ c.1, t.label = e.1 := by
  induction cs with
  | nil => intro i0 t h; simp [arcsFromChains] at h
  | cons c cs ih =>
    intro i0 t h
    rw [arcsFromChains] at h
    rcases List.mem_append.mp h with h1 | h2
    · rcases mem_chainArcs_label i0 K c.1 0 t h1 with ⟨e, he, hl⟩
      exact ⟨c, by simp, e, he, hl⟩
    · rcases ih (i0 + 1) t h2 with ⟨c2, hc2, e, he, hl⟩
      exact ⟨c2, by simp [hc2], e, he, hl⟩

/-- C5: for every automaton `a` and every integer `n`, no arc of the
automaton returned by `n_best(a, n)` has label `0` (epsilon): the
epsilon-removal post-pass eliminates every label-`0` arc. -/
theorem fsa_n_best_no_eps (a : FSA) (n : Int) :
    ∀ t ∈ (fsa_n_best a n).arcs, t.label ≠ 0 := by
  intro t ht
  have h1 : t ∈ arcsFromChains (searchFuel a n + 1) 0 (nBestChains a n) := ht
  rcases mem_arcsFromChains (searchFuel a n + 1) (nBestChains a n) 0 t h1 with
    ⟨c, hc, e, he, hl⟩
  rcases List.mem_map.mp hc with ⟨p, _, rfl⟩
  rw [hl]
  exact deEps_labels_ne p 0 e he

theorem fsa_n_best_no_eps_witness :
    Arc.mk 0 1 5 1 ∈ (fsa_n_best (FSA.mk 2 (some 0) [(1, 0)] [⟨0, 1, 5, 1⟩]) 1).arcs ∧
      (Arc.mk 0 1 5 1).label ≠ 0 :=
  ⟨by with_unfolding_all decide, fsa_n_best_no_eps (FSA.mk 2 (some 0) [(1, 0)] [⟨0, 1, 5, 1⟩]) 1
    (Arc.mk 0 1 5 1) (by with_unfolding_all decide)⟩

/-- C4, counterexample to the literal claim: on the valid automaton with
two states, start `0`, final state `1`, and two label-`0` (epsilon) arcs
of weights `1` and `2` from `0` to `1`, `n_best` with `n = 2` accepts
the empty string, which the input does not accept (labels are matched
literally, so the subset property fails), and the two selected paths
collapse to the single string `[]` even though the input has exactly
two accepting paths (so the accepted set has size 1, not
`min(2, 2) = 2`). -/
theorem fsa_n_best_counterexample :
    Valid (FSA.mk 2 (some 0) [(1, 0)] [⟨0, 1, 0, 1⟩, ⟨0, 1, 0, 2⟩]) ∧
      accepts (fsa_n_best (FSA.mk 2 (some 0) [(1, 0)] [⟨0, 1, 0, 1⟩, ⟨0, 1, 0, 2⟩]) 2) [] ∧
      ¬ accepts (FSA.mk 2 (some 0) [(1, 0)] [⟨0, 1, 0, 1⟩, ⟨0, 1, 0, 2⟩]) [] ∧
      nBestStrings (FSA.mk 2 (some 0) [(1, 0)] [⟨0, 1, 0, 1⟩, ⟨0, 1, 0, 2⟩]) 2 = [[], []] ∧
      (accPathsList (FSA.mk 2 (some 0) [(1, 0)] [⟨0, 1, 0, 1⟩, ⟨0, 1, 0, 2⟩]) 2).length = 2 := by
  with_unfolding_all decide

theorem cut_step (a : FSA) (ha : Valid a) (q : Nat) (hq : q < a.numStates)
    (p : List Arc) (hp : isPath a q p = true) (hlong : a.numStates < p.length) :
    ∃ p2, isPath a q p2 = true ∧ endState q p2 = endState q p ∧
      pathWeight p2 ≤ pathWeight p ∧
      p2.length < p.length ∧ p.length ≤ p2.length + a.numStates := by
  have hmap : ∀ i ∈ Finset.range (a.numStates + 1),
      endState q (p.take i) ∈ Finset.range a.numStates := by
    intro i _
    rw [Finset.mem_range]
    exact endState_lt a ha (p.take i) q hq (isPath_take a q p i hp)
  have hcard : (Finset.range a.numStates).card <
      (Finset.range (a.numStates + 1)).card := by
    rw [Finset.card_range, Finset.card_range]
    omega
  obtain ⟨i, hi, j, hj, hij, heq⟩ :=
    Finset.exists_ne_map_eq_of_card_lt_of_maps_to hcard hmap
  rw [Finset.mem_range] at hi hj
  obtain ⟨i0, j0, hilt, hjle, heq0⟩ : ∃ i0 j0, i0 < j0 ∧ j0 ≤ a.numStates ∧
      endState q (p.take i0) = endState q (p.take j0) := by
    rcases Nat.lt_or_ge i j with h | h
    · exact ⟨i, j, h, by omega, heq⟩
    · exact ⟨j, i, by omega, by omega, heq.symm⟩
  have hseg : p.take j0 = p.take i0 ++ (p.take j0).drop i0 := by
    conv_lhs => rw [← List.take_append_drop i0 (p.take j0)]
    rw [List.take_take, min_eq_left (le_of_lt hilt)]
  have htj := isPath_take a q p j0 hp
  have htj2 : isPath a q (p.take i0 ++ (p.take j0).drop i0) = true := by
    rw [← hseg]
    exact htj
  rw [isPath_append, Bool.and_eq_true] at htj2
  have hdrop := isPath_drop a q p j0 hp
  rw [← heq0] at hdrop
  have hp2path : isPath a q (p.take i0 ++ p.drop j0) = true := by
    rw [isPath_append, Bool.and_eq_true]
    exact ⟨htj2.1, hdrop⟩
  have hp2end : endState q (p.take i0 ++ p.drop j0) = endState q p := by
    rw [endState_append, heq0]
    conv_rhs => rw [← List.take_append_drop j0 p]
    rw [endState_append]
  have hsegmem : ∀ t ∈ (p.take j0).drop i0, t ∈ a.arcs := by
    intro t ht
    have h1 : t ∈ p.take j0 := List.Sublist.mem ht (List.drop_sublist _ _)
    have h2 : t ∈ p := List.Sublist.mem h1 (List.take_sublist _ _)
    exact isPath_arcs_mem a p q hp t h2
  have hsegw : 0 ≤ pathWeight ((p.take j0).drop i0) :=
    pathWeight_nonneg a ha _ hsegmem
  have hpw : pathWeight (p.take i0 ++ p.drop j0) ≤ pathWeight p := by
    have hfull : pathWeight p = pathWeight (p.take j0) + pathWeight (p.drop j0) := by
      conv_lhs => rw [← List.take_append_drop j0 p]
      rw [pathWeight_append]
    have hseg2 : pathWeight (p.take j0) =
        pathWeight (p.take i0) + pathWeight ((p.take j0).drop i0) := by
      conv_lhs => rw [hseg]
      rw [pathWeight_append]
    rw [pathWeight_append, hfull, hseg2]
    linarith
  refine ⟨p.take i0 ++ p.drop j0, hp2path, hp2end, hpw, ?_, ?_⟩
  · rw [List.length_append, List.length_take, List.length_drop]
    have : i0 ⊓ p.length = i0 := min_eq_left (by omega)
    omega
  · rw [List.length_append, List.length_take, List.length_drop]
    have : i0 ⊓ p.length = i0 := min_eq_left (by omega)
    omega

theorem drop_into (a : FSA) (ha : Valid a) (q : Nat) (hq : q < a.numStates)
    (B : Nat) (hB : a.numStates ≤ B) :
    ∀ (L : Nat) (p : List Arc), p.length ≤ L → isPath a q p = true →
      B < p.length →
      ∃ p2, isPath a q p2 = true ∧ endState q p2 = endState q p ∧
        pathWeight p2 ≤ pathWeight p ∧ B - a.numStates < p2.length ∧
        p2.length ≤ B := by
  intro L
  induction L with
  | zero =>
    intro p hlen _ hBp
    exact absurd hBp (by omega)
  | succ L ih =>
    intro p hlen hp hBp
    have hlong : a.numStates < p.length := lt_of_le_of_lt hB hBp
    obtain ⟨p2, h2path, h2end, h2w, h2lt, h2ge⟩ := cut_step a ha q hq p hp hlong
    by_cases hcase : p2.length ≤ B
    · exact ⟨p2, h2path, h2end, h2w, by omega, hcase⟩
    · obtain ⟨p3, h3path, h3end, h3w, h3a, h3b⟩ :=
        ih p2 (by omega) h2path (by omega)
      exact ⟨p3, h3path, by rw [h3end, h2end], le_trans h3w h2w, h3a, h3b⟩

theorem cut_many (a : FSA) (ha : Valid a) (q : Nat) (hq : q < a.numStates) :
    ∀ (k : Nat) (p : List Arc), isPath a q p = true →
      k * a.numStates < p.length →
      ∃ qs : List (List Arc), qs.Nodup ∧ qs.length = k ∧
        ∀ x ∈ qs, isPath a q x = true ∧ endState q x = endState q p ∧
          pathWeight x ≤ pathWeight p ∧ x.length ≤ k * a.numStates := by
  intro k
  induction k with
  | zero =>
    intro p _ _
    exact ⟨[], List.nodup_nil, rfl, by simp⟩
  | succ k ih =>
    intro p hp hlen
    have hB : a.numStates ≤ (k + 1) * a.numStates :=
      Nat.le_mul_of_pos_left a.numStates (by omega)
    obtain ⟨p2, h2path, h2end, h2w, h2lo, h2hi⟩ :=
      drop_into a ha q hq ((k + 1) * a.numStates) hB p.length p (le_refl _) hp hlen
    rw [Nat.succ_mul] at h2lo h2hi
    have h2lo2 : k * a.numStates < p2.length := by omega
    obtain ⟨qs, hnd, hlenqs, hall⟩ := ih p2 h2path h2lo2
    refine ⟨p2 :: qs, ?_, by simp [hlenqs], ?_⟩
    · rw [List.nodup_cons]
      refine ⟨fun hmem => ?_, hnd⟩
      have := (hall p2 hmem).2.2.2
      omega
    · intro x hx
      rcases List.mem_cons.mp hx with rfl | hx2
      · exact ⟨h2path, h2end, h2w, by rw [Nat.succ_mul]; omega⟩
      · obtain ⟨hxp, hxe, hxw, hxl⟩ := hall x hx2
        exact ⟨hxp, by rw [hxe, h2end], le_trans hxw h2w,
          by rw [Nat.succ_mul]; omega⟩

theorem sorted_take_weight_le (a : FSA) (W : Rat) :
    ∀ (S : List (List Arc)), List.Sorted (pathLe a) S →
      ∀ m, m ≤ (S.filter (fun r => decide (totalW a r ≤ W))).length →
        ∀ p ∈ S.take m, totalW a p ≤ W := by
  intro S
  induction S with
  | nil =>
    intro _ m _ p hp
    simp at hp
  | cons x S ih =>
    intro hsort m hm p hp
    cases m with
    | zero => simp at hp
    | succ m2 =>
      have hx : totalW a x ≤ W := by
        by_contra hgt
        push_neg at hgt
        have hfilnil : (x :: S).filter (fun r => decide (totalW a r ≤ W)) = [] := by
          rw [List.filter_eq_nil_iff]
          intro r hr
          simp only [decide_eq_true_eq]
          rcases List.mem_cons.mp hr with rfl | hr2
          · exact not_le_of_lt hgt
          · have h1 := pathLe_totalW a x r (List.rel_of_sorted_cons hsort r hr2)
            intro h2
            exact absurd (le_trans h1 h2) (not_le_of_lt hgt)
        rw [hfilnil] at hm
        simp at hm
      have htake : p ∈ x :: S.take m2 := by simpa using hp
      rcases List.mem_cons.mp htake with rfl | hp2
      · exact hx
      · have hfil : (x :: S).filter (fun r => decide (totalW a r ≤ W)) =
            x :: S.filter (fun r => decide (totalW a r ≤ W)) := by
          rw [List.filter_cons_of_pos]
          simp [hx]
        rw [hfil, List.length_cons] at hm
        exact ih ((List.pairwise_cons.mp hsort).2) m2 (by omega) p hp2

theorem nodup_subset_length {α : Type} [DecidableEq α] (l1 l2 : List α)
    (hnd : l1.Nodup) (hsub : ∀ x ∈ l1, x ∈ l2) : l1.length ≤ l2.length := by
  have h1 : l1.toFinset.card = l1.length := List.toFinset_card_of_nodup hnd
  have h2 : l1.toFinset ⊆ l2.toFinset := by
    intro x hx
    rw [List.mem_toFinset] at hx ⊢
    exact hsub x hx
  have h3 : l1.toFinset.card ≤ l2.toFinset.card := Finset.card_le_card h2
  have h4 : l2.toFinset.card ≤ l2.length := List.toFinset_card_le l2
  omega

theorem nBest_complete (a : FSA) (n : Int) (qp : List Arc)
    (hpath : isPath a (startState a) qp = true)
    (hfin : (finalWeight a (endState (startState a) qp)).isSome = true)
    (hqlen : qp.length ≤ searchFuel a n) : qp ∈ accPathsList a n := by
  refine List.mem_filter.mpr
    ⟨pathsLe_complete a qp (startState a) (searchFuel a n) hpath hqlen, ?_⟩
  rw [Bool.and_eq_true]
  exact ⟨hpath, hfin⟩

theorem nBest_many (a : FSA) (n : Int) (ha : Valid a) (qp : List Arc)
    (hq : AccPathP a qp) (hqlen : searchFuel a n < qp.length) :
    ∃ qs : List (List Arc), qs.Nodup ∧ qs.length = n.toNat ∧
      ∀ x ∈ qs, x ∈ accPathsList a n ∧ totalW a x ≤ totalW a qp := by
  obtain ⟨sa, hsa, hsalt⟩ := start_spec a ha
  have hss : startState a = sa := by unfold startState; rw [hsa]; rfl
  have hslt : startState a < a.numStates := by rw [hss]; exact hsalt
  obtain ⟨-, hpath, hfin⟩ := hq
  have hlen2 : n.toNat * a.numStates < qp.length := by
    rw [Nat.mul_comm]
    exact hqlen
  obtain ⟨qs, hnd, hlenqs, hall⟩ :=
    cut_many a ha (startState a) hslt n.toNat qp hpath hlen2
  refine ⟨qs, hnd, hlenqs, fun x hx => ?_⟩
  obtain ⟨hxp, hxe, hxw, hxl⟩ := hall x hx
  have hxfin : (finalWeight a (endState (startState a) x)).isSome = true := by
    rw [hxe]
    exact hfin
  have hxlen : x.length ≤ searchFuel a n := by
    show x.length ≤ a.numStates * n.toNat
    rw [Nat.mul_comm]
    exact hxl
  refine ⟨nBest_complete a n x hxp hxfin hxlen, ?_⟩
  unfold totalW
  rw [hxe]
  exact add_le_add_right hxw _

theorem nBest_optimal (a : FSA) (n : Int) (ha : Valid a) :
    ∀ p ∈ selected a n, ∀ q, AccPathP a q → q ∉ selected a n →
      totalW a p ≤ totalW a q := by
  intro p hp q hq hqnot
  by_cases hqlen : q.length ≤ searchFuel a n
  · obtain ⟨-, hqpath, hqfin⟩ := hq
    have hqmem : q ∈ accPathsList a n := nBest_complete a n q hqpath hqfin hqlen
    have hqs : q ∈ sortedAccPaths a n :=
      (List.perm_insertionSort (pathLe a) (accPathsList a n)).mem_iff.mpr hqmem
    have hqdrop : q ∈ (sortedAccPaths a n).drop n.toNat := by
      have hsplit := List.take_append_drop n.toNat (sortedAccPaths a n)
      rw [← hsplit] at hqs
      rcases List.mem_append.mp hqs with h1 | h2
      · exact absurd h1 hqnot
      · exact h2
    have hpw : List.Pairwise (pathLe a)
        ((sortedAccPaths a n).take n.toNat ++ (sortedAccPaths a n).drop n.toNat) := by
      rw [List.take_append_drop]
      exact List.sorted_insertionSort (pathLe a) (accPathsList a n)
    rw [List.pairwise_append] at hpw
    exact pathLe_totalW a p q (hpw.2.2 p hp q hqdrop)
  · obtain ⟨qs, hnd, hlenqs, hall⟩ := nBest_many a n ha q hq (by omega)
    have hsubfil : ∀ x ∈ qs,
        x ∈ (sortedAccPaths a n).filter (fun r => decide (totalW a r ≤ totalW a q)) := by
      intro x hx
      obtain ⟨hxmem, hxw⟩ := hall x hx
      refine List.mem_filter.mpr ⟨?_, decide_eq_true hxw⟩
      exact (List.perm_insertionSort (pathLe a) (accPathsList a n)).mem_iff.mpr hxmem
    have hcount : n.toNat ≤
        ((sortedAccPaths a n).filter (fun r => decide (totalW a r ≤ totalW a q))).length := by
      rw [← hlenqs]
      exact nodup_subset_length qs _ hnd hsubfil
    exact sorted_take_weight_le a (totalW a q) (sortedAccPaths a n)
      (List.sorted_insertionSort (pathLe a) (accPathsList a n)) n.toNat hcount p hp

theorem selected_accpath (a : FSA) (n : Int) (ha : Valid a) :
    ∀ p ∈ selected a n, AccPathP a p := by
  intro p hp
  obtain ⟨sa, hsa, -⟩ := start_spec a ha
  obtain ⟨-, hcond⟩ := List.mem_filter.mp (mem_selected_acc a n p hp)
  rw [Bool.and_eq_true] at hcond
  exact ⟨by rw [hsa]; rfl, hcond.1, hcond.2⟩

theorem selected_all_of_short (a : FSA) (n : Int) (ha : Valid a)
    (hshort : (sortedAccPaths a n).length < n.toNat) :
    ∀ p, AccPathP a p → p ∈ selected a n := by
  intro p hp
  have hsel : selected a n = sortedAccPaths a n :=
    List.take_of_length_le (le_of_lt hshort)
  by_cases hlen : p.length ≤ searchFuel a n
  · obtain ⟨-, hpath, hfin⟩ := hp
    rw [hsel]
    exact (List.perm_insertionSort (pathLe a) (accPathsList a n)).mem_iff.mpr
      (nBest_complete a n p hpath hfin hlen)
  · exfalso
    obtain ⟨qs, hnd, hlenqs, hall⟩ := nBest_many a n ha p hp (by omega)
    have hsub : ∀ x ∈ qs, x ∈ sortedAccPaths a n := by
      intro x hx
      exact (List.perm_insertionSort (pathLe a) (accPathsList a n)).mem_iff.mpr
        (hall x hx).1
    have := nodup_subset_length qs (sortedAccPaths a n) hnd hsub
    omega

/-- C4, amended: for every valid automaton `a` with no label-`0` arcs
and every integer `n`: every string accepted by `n_best(a, n)` is
accepted by `a` and is one of the selected best strings; every selected
path is an accepting path of `a`; at most `n` paths are selected, and
when fewer are selected every accepting path of `a` (cyclic ones
included) is among them; the selected weights are non-decreasing; the
selection is optimal over all accepting paths of `a` — every selected
path's total weight is at most that of every unselected accepting
path, cyclic ones included; and for `n = 1`,
if `a` has any accepting path, exactly one weight is returned and it
equals the minimum total weight over all accepting paths of `a`. -/
theorem fsa_n_best_spec (a : FSA) (n : Int) (ha : Valid a)
    (heps : ∀ t ∈ a.arcs, t.label ≠ 0) :
    (∀ s, accepts (fsa_n_best a n) s → accepts a s ∧ s ∈ nBestStrings a n) ∧
      (∀ p ∈ selected a n, AccPathP a p) ∧
      (nBestStrings a n).length ≤ n.toNat ∧
      ((nBestStrings a n).length = n.toNat ∨
        ∀ p, AccPathP a p → p ∈ selected a n) ∧
      List.Sorted (fun x y : Rat => x ≤ y) (nBestWeights a n) ∧
      (∀ p ∈ selected a n, ∀ q, AccPathP a q → q ∉ selected a n →
        totalW a p ≤ totalW a q) ∧
      ((∃ p, AccPathP a p) → ∃ w, nBestWeights a 1 = [w] ∧
        (∃ p, AccPathP a p ∧ totalW a p = w) ∧
        ∀ p, AccPathP a p → w ≤ totalW a p) := by
  obtain ⟨sa, hsa, hsalt⟩ := start_spec a ha
  have hss : startState a = sa := by unfold startState; rw [hsa]; rfl
  have hslt : startState a < a.numStates := by rw [hss]; exact hsalt
  have hstrlen : (nBestStrings a n).length =
      min n.toNat (sortedAccPaths a n).length := by
    unfold nBestStrings nBestChains selected
    rw [List.length_map, List.length_map, List.length_take]
  refine ⟨?_, selected_accpath a n ha, ?_, ?_, ?_, nBest_optimal a n ha, ?_⟩
  · intro s hacc
    have hmem := accepts_n_best_mem a n s hacc
    refine ⟨?_, hmem⟩
    rcases List.mem_map.mp hmem with ⟨c, hc, rfl⟩
    rcases List.mem_map.mp hc with ⟨p, hp, rfl⟩
    have hpacc := mem_selected_acc a n p hp
    obtain ⟨hple, hcond⟩ := List.mem_filter.mp hpacc
    rw [Bool.and_eq_true] at hcond
    obtain ⟨hpath, hfin⟩ := hcond
    have hlab : chainLabels (mkChain a p) = p.map (fun t => t.label) := by
      show ((deEps 0 p).1).map (fun e => e.1) = _
      exact deEps_labels_eq p
        (fun t ht => heps t (isPath_arcs_mem a p (startState a) hpath t ht)) 0
    rw [hlab]
    show (weightOf a (p.map (fun t => t.label))).isSome = true
    have hw : weightOf a (p.map (fun t => t.label)) =
        listMin (accWeights a sa (p.map (fun t => t.label))) := by
      unfold weightOf
      rw [hsa]
    rw [hw]
    have hne := accW_of_path a p (startState a) hpath hfin
    rw [hss] at hne
    cases hlm : listMin (accWeights a sa (p.map (fun t => t.label))) with
    | none => exact absurd ((listMin_eq_none_iff _).mp hlm) hne
    | some w => rfl
  · rw [hstrlen]
    exact min_le_left _ _
  · rcases Nat.lt_or_ge (sortedAccPaths a n).length n.toNat with h | h
    · exact Or.inr (selected_all_of_short a n ha h)
    · left
      rw [hstrlen]
      exact min_eq_left h
  · unfold nBestWeights
    apply List.Pairwise.map
    · intro p q h
      exact pathLe_totalW a p q h
    · exact List.Pairwise.sublist (List.take_sublist _ _)
        (List.sorted_insertionSort (pathLe a) (accPathsList a n))
  · rintro ⟨p, hstart0, hpath, hfin⟩
    have hfuel1 : searchFuel a 1 = a.numStates := by
      unfold searchFuel
      norm_num
    obtain ⟨p2, hlen, hpath2, hend, hwle⟩ :=
      acc_path_shorten a ha (startState a) hslt p hpath
    have hfin2 : (finalWeight a (endState (startState a) p2)).isSome = true := by
      rw [hend]
      exact hfin
    have hp2mem : p2 ∈ accPathsList a 1 :=
      nBest_complete a 1 p2 hpath2 hfin2 (by omega)
    have hp2s : p2 ∈ sortedAccPaths a 1 :=
      (List.perm_insertionSort (pathLe a) (accPathsList a 1)).mem_iff.mpr hp2mem
    cases hS : sortedAccPaths a 1 with
    | nil =>
      rw [hS] at hp2s
      exact absurd hp2s (List.not_mem_nil p2)
    | cons p0 rest =>
      have hp0sel : p0 ∈ selected a 1 := by
        unfold selected
        rw [hS]
        simp
      refine ⟨totalW a p0, ?_, ?_, ?_⟩
      · unfold nBestWeights selected
        rw [hS]
        rfl
      · exact ⟨p0, selected_accpath a 1 ha p0 hp0sel, rfl⟩
      · intro q hq
        by_cases hqsel : q ∈ selected a 1
        · have hq1 : q ∈ [p0] := by
            have : selected a 1 = [p0] := by
              unfold selected
              rw [hS]
              rfl
            rw [this] at hqsel
            exact hqsel
          have : q = p0 := by simpa using hq1
          rw [this]
        · exact nBest_optimal a 1 ha p0 hp0sel q hq hqsel

theorem fsa_n_best_spec_witness :
    Valid (FSA.mk 2 (some 0) [(1, 0)] [⟨0, 1, 5, 1⟩]) ∧
      (∀ t ∈ (FSA.mk 2 (some 0) [(1, 0)] [⟨0, 1, 5, 1⟩] : FSA).arcs, t.label ≠ 0) ∧
      ((∀ s, accepts (fsa_n_best (FSA.mk 2 (some 0) [(1, 0)] [⟨0, 1, 5, 1⟩]) 1) s →
          accepts (FSA.mk 2 (some 0) [(1, 0)] [⟨0, 1, 5, 1⟩]) s ∧
            s ∈ nBestStrings (FSA.mk 2 (some 0) [(1, 0)] [⟨0, 1, 5, 1⟩]) 1) ∧
        (∀ p ∈ selected (FSA.mk 2 (some 0) [(1, 0)] [⟨0, 1, 5, 1⟩]) 1,
          AccPathP (FSA.mk 2 (some 0) [(1, 0)] [⟨0, 1, 5, 1⟩]) p) ∧
        (nBestStrings (FSA.mk 2 (some 0) [(1, 0)] [⟨0, 1, 5, 1⟩]) 1).length ≤
          Int.toNat 1 ∧
        ((nBestStrings (FSA.mk 2 (some 0) [(1, 0)] [⟨0, 1, 5, 1⟩]) 1).length =
            Int.toNat 1 ∨
          ∀ p, AccPathP (FSA.mk 2 (some 0) [(1, 0)] [⟨0, 1, 5, 1⟩]) p →
            p ∈ selected (FSA.mk 2 (some 0) [(1, 0)] [⟨0, 1, 5, 1⟩]) 1) ∧
        List.Sorted (fun x y : Rat => x ≤ y)
          (nBestWeights (FSA.mk 2 (some 0) [(1, 0)] [⟨0, 1, 5, 1⟩]) 1) ∧
        (∀ p ∈ selected (FSA.mk 2 (some 0) [(1, 0)] [⟨0, 1, 5, 1⟩]) 1,
          ∀ q, AccPathP (FSA.mk 2 (some 0) [(1, 0)] [⟨0, 1, 5, 1⟩]) q →
            q ∉ selected (FSA.mk 2 (some 0) [(1, 0)] [⟨0, 1, 5, 1⟩]) 1 →
            totalW (FSA.mk 2 (some 0) [(1, 0)] [⟨0, 1, 5, 1⟩]) p ≤
              totalW (FSA.mk 2 (some 0) [(1, 0)] [⟨0, 1, 5, 1⟩]) q) ∧
        ((∃ p, AccPathP (FSA.mk 2 (some 0) [(1, 0)] [⟨0, 1, 5, 1⟩]) p) →
          ∃ w, nBestWeights (FSA.mk 2 (some 0) [(1, 0)] [⟨0, 1, 5, 1⟩]) 1 = [w] ∧
            (∃ p, AccPathP (FSA.mk 2 (some 0) [(1, 0)] [⟨0, 1, 5, 1⟩]) p ∧
              totalW (FSA.mk 2 (some 0) [(1, 0)] [⟨0, 1, 5, 1⟩]) p = w) ∧
            ∀ p, AccPathP (FSA.mk 2 (some 0) [(1, 0)] [⟨0, 1, 5, 1⟩]) p →
              w ≤ totalW (FSA.mk 2 (some 0) [(1, 0)] [⟨0, 1, 5, 1⟩]) p)) :=
  ⟨by decide, by decide,
    fsa_n_best_spec (FSA.mk 2 (some 0) [(1, 0)] [⟨0, 1, 5, 1⟩]) 1 (by decide) (by decide)⟩

/-- C10: every handle produced by the engine's own operations
(`fsa_from_string`, `fsa_from_arc_list`, `fsa_n_best`, `fsa_intersect`,
`fsa_difference`) carries the representation tag `COMPACT`, so
`reinterpret` always matches a known tag on engine-produced handles and
never reaches its NULL fallback. -/
theorem engine_handles_compact :
    (∀ bytes, (fsa_from_string_t bytes).type = COMPACT ∧
      (reinterpret (fsa_from_string_t bytes)).isSome = true) ∧
    (∀ states final_states arc_list,
      (fsa_from_arc_list_t states final_states arc_list).type = COMPACT ∧
      (reinterpret (fsa_from_arc_list_t states final_states arc_list)).isSome = true) ∧
    (∀ w n, (fsa_n_best_t w n).type = COMPACT ∧
      (reinterpret (fsa_n_best_t w n)).isSome = true) ∧
    (∀ w v, (fsa_intersect_t w v).type = COMPACT ∧
      (reinterpret (fsa_intersect_t w v)).isSome = true) ∧
    (∀ w v, (fsa_difference_t w v).type = COMPACT ∧
      (reinterpret (fsa_difference_t w v)).isSome = true) :=
  ⟨fun _ => ⟨rfl, rfl⟩, fun _ _ _ => ⟨rfl, rfl⟩, fun _ _ => ⟨rfl, rfl⟩,
    fun _ _ => ⟨rfl, rfl⟩, fun _ _ => ⟨rfl, rfl⟩⟩

end OpenFSA

